import Mathlib

/-!
# Verification of the Othello core (yuichi-morisaki/rust-gui)

This file shallowly embeds the Othello move engine and game controller of the
repository and proves the specification's testable properties against it.

The repository contains two parallel implementations of the same design:

* `src/gtk-examples/othello/src/board.rs` (+ `position.rs`, `engine.rs`):
  a `HashMap`-backed board with a transactional flip stack
  (`flip` / `commit` / `abort` / `undo_flip`) used by `Board::try_move`.
  Embedded below as the `BoardRS` namespace.
* `src/gtk-examples/othello/src/lib.rs`: a 100-cell array board with a
  sentinel border ring, a pure `try_place`, and an `Rc`/`Weak` game tree
  (`Game` / `State`).  Embedded below as the `LibRS` namespace; the tree is
  modelled as an arena of nodes with parent indices.

Machine integers (`i8`, `i32`) only hold values in `[-16, 16]` throughout the
algorithms, far from any overflow, so they are embedded as `Int`.
Rust panics (out-of-bounds coordinate constructions inside the scan loop) are
modelled as explicit `panic` results.
-/

instance {ε α : Type} [DecidableEq ε] [DecidableEq α] :
    DecidableEq (Except ε α) := fun a b =>
  match a, b with
  | .ok x, .ok y => decidable_of_iff (x = y) (by simp)
  | .error x, .error y => decidable_of_iff (x = y) (by simp)
  | .ok _, .error _ => isFalse (by intro h; cases h)
  | .error _, .ok _ => isFalse (by intro h; cases h)

namespace BoardRS

/-- `Disk` from board.rs: `Black | White`. -/
inductive Disk : Type
  | Black : Disk
  | White : Disk
deriving DecidableEq, Repr

/-- `flip_disk` from board.rs: maps Black to White and back. -/
def flipDisk : Disk → Disk
  | Disk.Black => Disk.White
  | Disk.White => Disk.Black

/-- `MoveErr` from board.rs. -/
inductive MoveErr : Type
  | NotEmpty : MoveErr
  | NoDiskFlipped : MoveErr
deriving DecidableEq, Repr

/-- A coordinate of the 8x8 playable area, 0-based as in position.rs
(`Column::new('a'..'h')` yields 0..7, `Row::new(1..8)` yields 0..7). -/
abbrev Coord : Type := Fin 8 × Fin 8

/-- Modelled from the spec: `Coordinate + (i32, i32) -> Result<Coordinate, _>`.
The `Coordinate` type used by board.rs is missing from `src/position.rs`
(which only provides the per-component `Column + i32` and `Row + i32`,
each yielding `Some` exactly when the result stays in `0..8`).  Following the
spec — "Offsetting a coordinate by a signed (Δcol, Δrow) either yields a
valid Coordinate or fails" — the pairwise offset succeeds exactly when both
components stay on the 8x8 board. -/
def Coord.add? (c : Coord) (d : Int × Int) : Option Coord :=
  if h : 0 ≤ (c.1 : Int) + d.1 ∧ (c.1 : Int) + d.1 < 8 ∧
      0 ≤ (c.2 : Int) + d.2 ∧ (c.2 : Int) + d.2 < 8 then
    some (⟨((c.1 : Int) + d.1).toNat, by omega⟩,
      ⟨((c.2 : Int) + d.2).toNat, by omega⟩)
  else
    none

/-- `Board` from board.rs: the disk map plus the transactional flip stack.
The `HashMap<Coordinate, Disk>` is embedded as a function
`Coord → Option Disk`; the `Vec<Coordinate>` stack as a list whose head is
the top of the stack. -/
structure Board : Type where
  disks : Coord → Option Disk
  stack : List Coord

instance : DecidableEq Board := fun a b =>
  decidable_of_iff (a.disks = b.disks ∧ a.stack = b.stack)
    (by cases a; cases b; simp)

/-- `Board::new` from board.rs: empty map, empty stack. -/
def Board.new : Board := ⟨fun _ => none, []⟩

/-- `Board::place` from board.rs (the in-range, cell-empty case; the source
panics on an occupied cell, and every call site checks emptiness first). -/
def Board.place (b : Board) (c : Coord) (d : Disk) : Board :=
  { b with disks := Function.update b.disks c (some d) }

/-- Coordinate literals: `coord col row` with 1-based row as in the Rust
calls `Coordinate::new('d', 5)`; columns are given 0-based (a=0 .. h=7). -/
def coord (col row : Fin 8) : Coord := (col, row)

/-- `Board::init` from board.rs: clears the board and places the four
starting disks (Black d5, e4; White d4, e5). -/
def Board.init : Board :=
  (((Board.new.place (3, 4) Disk.Black).place (4, 3) Disk.Black).place
      (3, 3) Disk.White).place (4, 4) Disk.White

/-- `Board::get_disk` from board.rs. -/
def Board.getDisk (b : Board) (c : Coord) : Option Disk := b.disks c

/-- `Board::flip` from board.rs: flips the disk at `c` and pushes `c` on the
stack.  The source panics when the cell is empty; every call site guards
with a successful `get_disk`, so the empty case (returning `b` unchanged
here) is unreachable. -/
def Board.flip (b : Board) (c : Coord) : Board :=
  match b.disks c with
  | some d => ⟨Function.update b.disks c (some (flipDisk d)), c :: b.stack⟩
  | none => b

/-- `Board::undo_flip` from board.rs: pops the stack and flips that cell
back.  (The `unwrap` in the source cannot fail because only flipped cells,
which hold disks, are pushed.) -/
def Board.undoFlip (b : Board) : Option (Coord × Board) :=
  match b.stack with
  | [] => none
  | c :: rest =>
    match b.disks c with
    | some d => some (c, ⟨Function.update b.disks c (some (flipDisk d)), rest⟩)
    | none => some (c, ⟨b.disks, rest⟩)

/-- The disk map after popping and unflipping every stacked cell, top first
(structural form of the recursion in `Board::abort`). -/
def abortGo (f : Coord → Option Disk) : List Coord → (Coord → Option Disk)
  | [] => f
  | c :: rest =>
    abortGo (match f c with
      | some d => Function.update f c (some (flipDisk d))
      | none => f) rest

/-- `Board::abort` from board.rs: undoes every stacked provisional flip
(via `undo_flip`) until the stack is empty. -/
def Board.abort (b : Board) : Board := ⟨abortGo b.disks b.stack, []⟩

/-- `Board::commit` from board.rs: returns the stack size and clears it. -/
def Board.commit (b : Board) : Nat × Board :=
  (b.stack.length, { b with stack := [] })

/-- The inner `for offset in 1..` loop of `Board::try_move`, scanning one
compass direction `(dx, dy)` from `c` at increasing offsets, flipping
opponent disks provisionally and ending with `commit` (on reaching the
mover's own disk) or `abort` (on running off-board or hitting an empty
cell).  The Rust loop is unbounded but always terminates: offset 8 is
off-board in every direction, so fuel `9` is never exhausted (the proof of
`scanAux_eq` never reaches the fuel-0 case); the fuel-0 fallback mirrors
the abort exit. -/
def scanAux (dx dy : Int) (cur : Disk) (c : Coord) :
    Nat → Nat → Board → Nat × Board
  | 0, _, b => (0, b.abort)
  | fuel + 1, k, b =>
    match Coord.add? c (dx * k, dy * k) with
    | some c' =>
      match b.disks c' with
      | some d =>
        if d = cur then b.commit
        else scanAux dx dy cur c fuel (k + 1) (b.flip c')
      | none => (0, b.abort)
    | none => (0, b.abort)

/-- The eight compass directions in the iteration order of the Rust nested
loops `for dx in -1..=1 { for dy in -1..=1 { ... } }`, with `(0,0)` skipped. -/
def dirs8 : List (Int × Int) :=
  [(-1, -1), (-1, 0), (-1, 1), (0, -1), (0, 1), (1, -1), (1, 0), (1, 1)]

/-- The outer direction loop of `Board::try_move`: scans each direction in
order on the working board, accumulating the committed flip counts. -/
def scanDirs (cur : Disk) (c : Coord) : List (Int × Int) → Board → Nat × Board
  | [], b => (0, b)
  | d :: ds, b =>
    let r := scanAux d.1 d.2 cur c 9 1 b
    let s := scanDirs cur c ds r.2
    (r.1 + s.1, s.2)

/-- `Board::try_move` from board.rs, additionally exposing the final state of
the working board (the mutated clone) as the second component; the source
returns only the first component, dropping the clone on error. -/
def Board.tryMoveFull (b : Board) (c : Coord) (dk : Disk) :
    Except MoveErr Board × Board :=
  if (b.getDisk c).isSome then
    (Except.error MoveErr.NotEmpty, b)
  else
    let r := scanDirs dk c dirs8 b
    if 0 < r.1 then
      (Except.ok (r.2.place c dk), r.2.place c dk)
    else
      (Except.error MoveErr.NoDiskFlipped, r.2)

/-- `Board::try_move` from board.rs. -/
def Board.tryMove (b : Board) (c : Coord) (dk : Disk) :
    Except MoveErr Board := (b.tryMoveFull c dk).1

/-! ### Pure description of a directional scan

`runAux f cur c dx dy fuel k` walks the ray `c + k·(dx,dy), c + (k+1)·(dx,dy), …`
over the plain disk map `f`.  It returns `some ps` — the list of consecutive
opponent cells — exactly when the walk ends on a disk of the mover's color
`cur`, and `none` when it runs off-board or reaches an empty cell first.
This is the specification-level notion "the direction terminates in a
same-side disk"; the theorems below prove that the stateful
flip/commit/abort scan of `try_move` realizes it. -/

def runAux (f : Coord → Option Disk) (cur : Disk) (c : Coord) (dx dy : Int) :
    Nat → Nat → Option (List Coord)
  | 0, _ => none
  | fuel + 1, k =>
    match Coord.add? c (dx * k, dy * k) with
    | some c' =>
      match f c' with
      | some d =>
        if d = cur then some []
        else (runAux f cur c dx dy fuel (k + 1)).map (c' :: ·)
      | none => none
    | none => none

/-- The cells a direction's scan ends up flipping: the opponent run when the
direction terminates in a same-side disk, nothing otherwise. -/
def dirFlips (f : Coord → Option Disk) (cur : Disk) (c : Coord)
    (d : Int × Int) : List Coord :=
  (runAux f cur c d.1 d.2 9 1).getD []

/-- All cells flipped by a move: the per-direction flip lists concatenated in
direction order. -/
def flipsFor (f : Coord → Option Disk) (cur : Disk) (c : Coord)
    (ds : List (Int × Int)) : List Coord :=
  ds.flatMap (fun d => dirFlips f cur c d)

/-- Flip the disk at one cell of a plain disk map. -/
def flipCell (f : Coord → Option Disk) (c : Coord) : Coord → Option Disk :=
  match f c with
  | some d => Function.update f c (some (flipDisk d))
  | none => f

/-- Flip the disks at a list of cells, in order. -/
def applyFlips (f : Coord → Option Disk) (ps : List Coord) :
    Coord → Option Disk :=
  ps.foldl flipCell f

/-- The list of all 64 coordinates. -/
def allCoords : List Coord :=
  (List.finRange 8).flatMap (fun i => (List.finRange 8).map (fun j => (i, j)))

/-- The number of disks of one color on a disk map (the per-color disk count
computed by scanning the board, as in `Game::count`). -/
def countD (f : Coord → Option Disk) (d : Disk) : Nat :=
  allCoords.countP (fun x => decide (f x = some d))

/-- The number of cells other than the placed one where two boards differ:
the intrinsic "number of flipped cells" of a move from `f` to `g` placing
at `c`. -/
def flippedCount (f g : Coord → Option Disk) (c : Coord) : Nat :=
  allCoords.countP (fun x => decide (x ≠ c ∧ f x ≠ g x))


/-- A direction of the compass scan: both components in `{-1,0,1}`, not both
zero. -/
def validDir (d : Int × Int) : Prop :=
  (d.1 = -1 ∨ d.1 = 0 ∨ d.1 = 1) ∧ (d.2 = -1 ∨ d.2 = 0 ∨ d.2 = 1) ∧
    ¬(d.1 = 0 ∧ d.2 = 0)

/-- The board after Black plays f5 on the initial position: Black at
d5, e4, e5, f5; White at d4. -/
def boardAfterF5 : Board :=
  ((((Board.new.place (3, 4) Disk.Black).place (4, 3) Disk.Black).place
      (4, 4) Disk.Black).place (5, 4) Disk.Black).place (3, 3) Disk.White

end BoardRS

namespace PositionRS

/-- `Column::new` from position.rs: panics outside `'a'..='h'`, otherwise
the 0-based index `0..=7`.  The panic is modelled as `none`. -/
def Column.new? (ch : Char) : Option Int :=
  if ch < 'a' ∨ 'h' < ch then none
  else some ((ch.toNat - 'a'.toNat : Nat) : Int)

/-- `Row::new` from position.rs: panics outside `1..=8`, otherwise the
0-based index `0..=7`. -/
def Row.new? (n : Nat) : Option Int :=
  if n < 1 ∨ 8 < n then none
  else some ((n - 1 : Nat) : Int)

/-- `impl ops::Add<i32> for Column` from position.rs: `Some` exactly when
the offset index stays in `0..8`. -/
def Column.add (idx : Int) (rhs : Int) : Option Int :=
  if idx + rhs < 0 ∨ 8 ≤ idx + rhs then none else some (idx + rhs)

/-- `impl ops::Add<i32> for Row` from position.rs. -/
def Row.add (idx : Int) (rhs : Int) : Option Int :=
  if idx + rhs < 0 ∨ 8 ≤ idx + rhs then none else some (idx + rhs)

end PositionRS

namespace LibRS

/-- `Disk` from lib.rs. -/
inductive Disk : Type
  | Black : Disk
  | White : Disk
deriving DecidableEq, Repr

/-- `Side` from lib.rs. -/
inductive Side : Type
  | Dark : Side
  | Light : Side
deriving DecidableEq, Repr

/-- `change_turn` from lib.rs. -/
def changeTurn : Side → Side
  | Side.Dark => Side.Light
  | Side.Light => Side.Dark

/-- `impl From<i8> for Column` from lib.rs: panics outside `0..=9` (the
10-wide range including the two border sentinel columns), otherwise the
index itself.  Playable columns a..h are `1..=8` here. -/
def Column.fromInt? (i : Int) : Option Int :=
  if i < 0 ∨ 9 < i then none else some i

/-- `impl From<char> for Column` from lib.rs: panics outside `'a'..='h'`,
otherwise the 1-based index `1..=8`. -/
def Column.fromChar? (ch : Char) : Option Int :=
  if ch < 'a' ∨ 'h' < ch then none
  else some ((ch.toNat - 'a'.toNat + 1 : Nat) : Int)

/-- `impl From<i8> for Row` from lib.rs: panics outside `0..=9`. -/
def Row.fromInt? (i : Int) : Option Int :=
  if i < 0 ∨ 9 < i then none else some i

/-- `impl From<(i8, i8)> for Position` from lib.rs: both components go
through the `0..=9` bound check (panic modelled as `none`). -/
def Position.from? (c r : Int) : Option (Int × Int) :=
  match Column.fromInt? c, Row.fromInt? r with
  | some a, some b => some (a, b)
  | _, _ => none

/-- `Position::index` from lib.rs: `col + row * 10`. -/
def idx (c r : Int) : Nat := (c + r * 10).toNat

/-- `Board` from lib.rs: `disks: [Option<Disk>; 100]`, embedded as a list
of length 100. -/
structure Board : Type where
  disks : List (Option Disk)
deriving DecidableEq, Repr

/-- `Board::new` from lib.rs: all empty except the four starting disks
(d4 White, d5 Black, e4 Black, e5 White; d4 is index 44). -/
def Board.new : Board :=
  ⟨((((List.replicate 100 (none : Option Disk)).set (idx 4 4)
      (some Disk.White)).set (idx 4 5) (some Disk.Black)).set (idx 5 4)
      (some Disk.Black)).set (idx 5 5) (some Disk.White)⟩

/-- `Board::get_disk` from lib.rs. -/
def Board.getDisk (b : Board) (c r : Int) : Option Disk :=
  b.disks.getD (idx c r) none

/-- `Board::set_disk` from lib.rs. -/
def Board.setDisk (b : Board) (c r : Int) (d : Disk) : Board :=
  ⟨b.disks.set (idx c r) (some d)⟩

/-- Result of one directional scan of `Board::flip_positions`. -/
inductive ScanEnd : Type
  | panic : ScanEnd
  | endCur (ps : List (Int × Int)) : ScanEnd
  | endEmpty : ScanEnd
deriving DecidableEq, Repr

/-- The loop of `Board::flip_positions` from lib.rs: step to
`(c + dx, r + dy)`; constructing a `Position` outside `0..=9` panics
(modelled as `.panic`); an empty cell discards the accumulated run
(`return vec![]`, `.endEmpty`); a same-side disk returns the accumulated
opponent run (`.endCur ps`); an opponent disk is recorded and the walk
continues.  The Rust loop is unbounded; fuel 12 is never exhausted on a
border-empty board (every walk from a playable cell stops within 8 steps),
and exhaustion is conservatively modelled as the abnormal `.panic`. -/
def lscan (b : Board) (dx dy : Int) (cur opp : Disk) :
    Nat → Int → Int → ScanEnd
  | 0, _, _ => ScanEnd.panic
  | fuel + 1, c, r =>
    if 0 ≤ c + dx ∧ c + dx ≤ 9 ∧ 0 ≤ r + dy ∧ r + dy ≤ 9 then
      match b.getDisk (c + dx) (r + dy) with
      | some d =>
        if d = cur then ScanEnd.endCur []
        else
          match lscan b dx dy cur opp fuel (c + dx) (r + dy) with
          | ScanEnd.endCur ps => ScanEnd.endCur ((c + dx, r + dy) :: ps)
          | ScanEnd.endEmpty => ScanEnd.endEmpty
          | ScanEnd.panic => ScanEnd.panic
      | none => ScanEnd.endEmpty
    else ScanEnd.panic

/-- `Board::flip_positions` from lib.rs: the returned vector, or `none` for
a panic. -/
def Board.flipPositions (b : Board) (c r dx dy : Int) (cur opp : Disk) :
    Option (List (Int × Int)) :=
  match lscan b dx dy cur opp 12 c r with
  | ScanEnd.panic => none
  | ScanEnd.endCur ps => some ps
  | ScanEnd.endEmpty => some []

/-- The eight directions in the iteration order of `try_place`'s loops
`for &dx in &[-1, 0, 1] { for &dy in &[-1, 0, 1] { ... } }` with `(0,0)`
skipped — the same order as board.rs's `dirs8`. -/
abbrev ldirs8 : List (Int × Int) := BoardRS.dirs8

/-- The direction loop of `Board::try_place`: concatenates the flip
positions of all eight directions, propagating a panic. -/
def collectFlips (b : Board) (c r : Int) (cur opp : Disk) :
    List (Int × Int) → Option (List (Int × Int))
  | [] => some []
  | d :: ds =>
    match b.flipPositions c r d.1 d.2 cur opp with
    | none => none
    | some ps => (collectFlips b c r cur opp ds).map (ps ++ ·)

/-- Result of `Board::try_place`: the source returns `Option<Board>`; the
panic of an out-of-range `Position` construction during a scan is kept
apart from the legitimate `None` (`illegal`). -/
inductive PlaceRes : Type
  | panic : PlaceRes
  | illegal : PlaceRes
  | ok (b : Board) : PlaceRes
deriving DecidableEq, Repr

/-- `Side` to the pair `(current, opponent)` of `try_place`. -/
def sideDisks : Side → Disk × Disk
  | Side.Dark => (Disk.Black, Disk.White)
  | Side.Light => (Disk.White, Disk.Black)

/-- `Board::try_place` from lib.rs: occupied target or no flipped position
is illegal (`None` in the source); otherwise the new board has the mover's
disk at the target and at every collected flip position. -/
def Board.tryPlace (b : Board) (c r : Int) (s : Side) : PlaceRes :=
  if (b.getDisk c r).isSome then PlaceRes.illegal
  else
    match collectFlips b c r (sideDisks s).1 (sideDisks s).2 ldirs8 with
    | none => PlaceRes.panic
    | some positions =>
      if positions = [] then PlaceRes.illegal
      else
        PlaceRes.ok (positions.foldl
          (fun bd p => bd.setDisk p.1 p.2 (sideDisks s).1)
          (b.setDisk c r (sideDisks s).1))

/-- A playable cell: columns and rows `1..=8` in lib.rs numbering. -/
def inPlay (c r : Int) : Prop := 1 ≤ c ∧ c ≤ 8 ∧ 1 ≤ r ∧ r ≤ 8

instance (c r : Int) : Decidable (inPlay c r) := by
  unfold inPlay
  infer_instance

/-- The border-clear invariant of C10: the backing array has its full 100
cells and every cell of the sentinel ring (column 0 or 9, row 0 or 9) is
empty. -/
def borderClear (b : Board) : Prop :=
  b.disks.length = 100 ∧
  ∀ i : Fin 100,
    (i.val % 10 = 0 ∨ i.val % 10 = 9 ∨ i.val / 10 = 0 ∨ i.val / 10 = 9) →
      b.disks.getD i.val none = none

instance (b : Board) : Decidable (borderClear b) := by
  unfold borderClear
  infer_instance

/-- The boards reachable in lib.rs: `Board::new` followed by any sequence
of successful `try_place` calls at playable positions. -/
inductive ReachableB : Board → Prop
  | base : ReachableB Board.new
  | step (b : Board) (c r : Int) (s : Side) (b' : Board) :
      ReachableB b → inPlay c r → b.tryPlace c r s = PlaceRes.ok b' →
      ReachableB b'

/-- Number of scan steps before direction `(dx, dy)` leaves the playable
area from `(c, r)`. -/
def rem (dx dy c r : Int) : Nat :=
  (if dx = 1 then 9 - c else if dx = -1 then c
   else if dy = 1 then 9 - r else r).toNat

/-! ### The game tree of lib.rs (`Game` / `State`)

The `Rc<State>` graph of lib.rs is a tree owned from the root, with
`RefCell<Weak<State>>` parent back-references that are set to the inserting
node right after each `insert_child`.  It is embedded as an arena: a list
of node records, each holding its board, side to move, parent index, and
an association list of `(move key, child index)` edges in insertion order
(the move key `none` is the pass sentinel, as in the
`HashMap<Option<Position>, Rc<State>>` of the source; gen_next_moves
inserts pairwise-distinct keys, so the association list faithfully models
the map). -/

/-- One `State` of lib.rs. -/
structure NodeRec : Type where
  board : Board
  side : Side
  parent : Option Nat
  children : List (Option (Int × Int) × Nat)
deriving DecidableEq, Repr

/-- A `Game` of lib.rs: the arena of all created states (the root is index
0) and the current index. -/
structure GameM : Type where
  nodes : List NodeRec
  current : Nat
deriving DecidableEq, Repr

/-- `Game::new` from lib.rs. -/
def GameM.new : GameM := ⟨[⟨Board.new, Side.Dark, none, []⟩], 0⟩

/-- `Game::new_game` from lib.rs: back to the root. -/
def newGameM (g : GameM) : GameM := { g with current := 0 }

/-- The iteration order of `gen_next_moves`: `for col in 'a'..='h'` outer,
`for row in 1i8..=8` inner, in lib.rs's 1-based numbering. -/
def playOrder : List (Int × Int) :=
  (List.range 8).flatMap (fun ci =>
    (List.range 8).map (fun ri => ((ci : Int) + 1, (ri : Int) + 1)))

/-- The successful `try_place` results of `gen_next_moves`' loop, in
iteration order; `none` when some `try_place` panics. -/
def legalChildren (b : Board) (s : Side) :
    List (Int × Int) → Option (List ((Int × Int) × Board))
  | [] => some []
  | p :: ps =>
    match b.tryPlace p.1 p.2 s with
    | PlaceRes.panic => none
    | PlaceRes.illegal => legalChildren b s ps
    | PlaceRes.ok b' => (legalChildren b s ps).map ((p, b') :: ·)

/-- The child edges and node records created by `gen_next_moves` for the
legal-move list, numbering the new nodes from `base`; each gets the
opponent side, the inserting node as parent, and no children yet. -/
def mkChildren (base parentIdx : Nat) (ns : Side) :
    List ((Int × Int) × Board) →
      List (Option (Int × Int) × Nat) × List NodeRec
  | [] => ([], [])
  | pb :: rest =>
    let t := mkChildren (base + 1) parentIdx ns rest
    ((some pb.1, base) :: t.1, ⟨pb.2, ns, some parentIdx, []⟩ :: t.2)

/-- `Game::gen_next_moves` from lib.rs: a no-op when the current node
already has children; otherwise insert one child per legal move (key =
the coordinate, board = the move's result, side = opponent, parent = the
current node), and when no move is legal insert exactly one pass child
(key = `none`) with the unchanged board.  `none` models the panic of a
`try_place` on a malformed board. -/
def genNextMoves (g : GameM) : Option GameM :=
  match g.nodes.get? g.current with
  | none => some g
  | some n =>
    if 0 < n.children.length then some g
    else
      match legalChildren n.board n.side playOrder with
      | none => none
      | some L =>
        if L = [] then
          some ⟨(g.nodes.set g.current
              { n with children := [(none, g.nodes.length)] }) ++
              [⟨n.board, changeTurn n.side, some g.current, []⟩], g.current⟩
        else
          some ⟨(g.nodes.set g.current
              { n with children :=
                  (mkChildren g.nodes.length g.current
                    (changeTurn n.side) L).1 }) ++
              (mkChildren g.nodes.length g.current (changeTurn n.side) L).2,
            g.current⟩

/-- `State::get_child` lookup in the child association list. -/
def findChild (children : List (Option (Int × Int) × Nat))
    (key : Option (Int × Int)) : Option Nat :=
  (children.find? (fun kc => decide (kc.1 = key))).map Prod.snd

/-- `Game::place` from lib.rs: move to the child keyed by `pos` if it
exists, reporting success. -/
def placeM (g : GameM) (p : Int × Int) : GameM × Bool :=
  match g.nodes.get? g.current with
  | none => (g, false)
  | some n =>
    match findChild n.children (some p) with
    | some j => ({ g with current := j }, true)
    | none => (g, false)

/-- `Game::pass_back` from lib.rs: move into the pass child if present. -/
def passBackM (g : GameM) : GameM × Bool :=
  match g.nodes.get? g.current with
  | none => (g, false)
  | some n =>
    match findChild n.children none with
    | some j => ({ g with current := j }, true)
    | none => (g, false)

/-- `Game::undo` from lib.rs: move to the parent when there is one. -/
def undoM (g : GameM) : GameM :=
  match g.nodes.get? g.current with
  | none => g
  | some n =>
    match n.parent with
    | some i => { g with current := i }
    | none => g

/-- `Game::count` from lib.rs: per-color disk counts over the playable
cells of the current board. -/
def countL (b : Board) (d : Disk) : Nat :=
  playOrder.countP (fun p => decide (b.getDisk p.1 p.2 = some d))

/-- `GameStatus` from lib.rs. -/
inductive GameStatus : Type
  | GameOver (black white : Nat) : GameStatus
  | PassBack (black white : Nat) (s : Side) : GameStatus
  | Continue (black white : Nat) (s : Side) : GameStatus
deriving DecidableEq, Repr

/-- `Game::prepare` from lib.rs: expand the current node, count disks,
report game over at 64 disks, otherwise follow up to two forced passes
(expanding after the first) and report `GameOver` / `PassBack` /
`Continue` accordingly.  `none` models a panic inside an expansion. -/
def prepareM (g : GameM) : Option (GameStatus × GameM) :=
  match genNextMoves g with
  | none => none
  | some g1 =>
    match g1.nodes.get? g1.current with
    | none => none
    | some n =>
      let black := countL n.board Disk.Black
      let white := countL n.board Disk.White
      if black + white = 64 then some (GameStatus.GameOver black white, g1)
      else
        match passBackM g1 with
        | (g2, true) =>
          match genNextMoves g2 with
          | none => none
          | some g3 =>
            match passBackM g3 with
            | (g4, true) => some (GameStatus.GameOver black white, g4)
            | (g4, false) =>
              match g4.nodes.get? g4.current with
              | none => none
              | some n2 => some (GameStatus.PassBack black white n2.side, g4)
        | (g2, false) => some (GameStatus.Continue black white n.side, g2)

/-! ### Arena helper lemmas -/

/-- A node's cached children coincide with what `gen_next_moves` would
produce from its board and side: one child per legal move, with the move's
board and the opponent side, or the single pass child with the unchanged
board. -/
def expandedAt (ns : List NodeRec) (n : NodeRec) : Prop :=
  ∃ L, legalChildren n.board n.side playOrder = some L ∧
    ((L = [] ∧ ∃ j nd, n.children = [(none, j)] ∧ ns.get? j = some nd ∧
        nd.board = n.board ∧ nd.side = changeTurn n.side) ∨
     (L ≠ [] ∧ n.children.map Prod.fst = L.map (fun pb => some pb.1) ∧
        ∀ kj ∈ n.children, ∃ pb ∈ L, ∃ nd, kj.1 = some pb.1 ∧
          ns.get? kj.2 = some nd ∧ nd.board = pb.2 ∧
          nd.side = changeTurn n.side))

/-- Per-node well-formedness: border-clear board, child edges pointing to
in-arena nodes whose parent back-reference is this node, an in-arena
parent pointer, and children either absent or equal to the node's
expansion. -/
def okNode (ns : List NodeRec) (i : Nat) (n : NodeRec) : Prop :=
  borderClear n.board ∧
  (∀ kj ∈ n.children, ∃ nd, ns.get? kj.2 = some nd ∧
      nd.parent = some i) ∧
  (∀ p, n.parent = some p → p < ns.length) ∧
  (n.children = [] ∨ expandedAt ns n)

/-- The game-tree invariant, maintained by every `Game` operation. -/
def Inv (g : GameM) : Prop :=
  0 < g.nodes.length ∧ g.current < g.nodes.length ∧
  ∀ i n, g.nodes.get? i = some n → okNode g.nodes i n

/-- The states reachable through the public `Game` interface of lib.rs:
`new`, `new_game`, `prepare`, `place`, `undo`. -/
inductive ReachableG : GameM → Prop
  | base : ReachableG GameM.new
  | newGame {g : GameM} : ReachableG g → ReachableG (newGameM g)
  | prep {g : GameM} {st : GameStatus} {g' : GameM} : ReachableG g →
      prepareM g = some (st, g') → ReachableG g'
  | place {g : GameM} (p : Int × Int) : ReachableG g →
      ReachableG (placeM g p).1
  | undo {g : GameM} : ReachableG g → ReachableG (undoM g)

/-- The side `s` has no legal move on `b`. -/
def noMove (b : Board) (s : Side) : Prop :=
  ∀ p ∈ playOrder, ∀ b', b.tryPlace p.1 p.2 s ≠ PlaceRes.ok b'

/-- The root node of a fresh game. -/
def rootNode : NodeRec := ⟨Board.new, Side.Dark, none, []⟩

/-- The status and game of the first `prepare` on a fresh game. -/
def newPrep : GameStatus × GameM :=
  (prepareM GameM.new).getD (GameStatus.GameOver 0 0, GameM.new)

/-- A board with a single Black disk at a1: neither side has a legal
move. -/
def b7 : Board :=
  ⟨(List.replicate 100 (none : Option Disk)).set 11 (some Disk.Black)⟩

/-- A game rooted at `b7` with Light to move. -/
def g7base : GameM := ⟨[⟨b7, Side.Light, none, []⟩], 0⟩

/-- The game after `prepare` on `g7base` (a double forced pass: prepare
walks into the pass child of the pass child and reports game over). -/
def g7after : GameM :=
  ((prepareM g7base).getD (GameStatus.GameOver 0 0, g7base)).2

/-- The current node of `g7after`. -/
def g7node : NodeRec := (g7after.nodes.get? g7after.current).getD rootNode

end LibRS

namespace BoardRS

/-! ### Helper lemmas -/

theorem dirs8_valid : ∀ d ∈ dirs8, validDir d := by
  intro d hd
  simp only [dirs8, List.mem_cons, List.not_mem_nil, or_false] at hd
  rcases hd with rfl | rfl | rfl | rfl | rfl | rfl | rfl | rfl <;>
    simp [validDir]

theorem dirs8_nodup : dirs8.Nodup := by decide

theorem add?_eq_some {c e : Coord} {a b : Int} :
    Coord.add? c (a, b) = some e ↔
      (e.1 : Int) = (c.1 : Int) + a ∧ (e.2 : Int) = (c.2 : Int) + b := by
  unfold Coord.add?
  split
  · rename_i h
    constructor
    · intro he
      injection he with he
      subst he
      refine ⟨?_, ?_⟩ <;> simp <;> omega
    · rintro ⟨h1, h2⟩
      congr 1
      apply Prod.ext
      · apply Fin.ext
        simp
        omega
      · apply Fin.ext
        simp
        omega
  · rename_i h
    constructor
    · intro he; cases he
    · rintro ⟨h1, h2⟩
      exfalso
      apply h
      have i1 := e.1.isLt
      have i2 := e.2.isLt
      omega

theorem add?_offset_inj {c e : Coord} {dx dy : Int} (hd : validDir (dx, dy))
    {j k : Nat} (hj : Coord.add? c (dx * j, dy * j) = some e)
    (hk : Coord.add? c (dx * k, dy * k) = some e) : j = k := by
  rw [add?_eq_some] at hj hk
  obtain ⟨hd1, hd2, hd0⟩ := hd
  simp only at hd1 hd2 hd0
  rcases hd1 with rfl | rfl | rfl <;> rcases hd2 with rfl | rfl | rfl <;> omega

theorem add?_ne_center {c e : Coord} {dx dy : Int} (hd : validDir (dx, dy))
    {k : Nat} (hk : 1 ≤ k) (h : Coord.add? c (dx * k, dy * k) = some e) :
    e ≠ c := by
  rw [add?_eq_some] at h
  obtain ⟨hd1, hd2, hd0⟩ := hd
  simp only at hd1 hd2 hd0
  rintro rfl
  rcases hd1 with rfl | rfl | rfl <;> rcases hd2 with rfl | rfl | rfl <;> omega

theorem rays_disjoint {c e : Coord} {d₁ d₂ : Int × Int}
    (h₁ : validDir d₁) (h₂ : validDir d₂) (hne : d₁ ≠ d₂)
    {j k : Nat} (hj : 1 ≤ j) (hk : 1 ≤ k)
    (e₁ : Coord.add? c (d₁.1 * j, d₁.2 * j) = some e)
    (e₂ : Coord.add? c (d₂.1 * k, d₂.2 * k) = some e) : False := by
  rw [add?_eq_some] at e₁ e₂
  obtain ⟨a1, b1, z1⟩ := h₁
  obtain ⟨a2, b2, z2⟩ := h₂
  have hne' : ¬(d₁.1 = d₂.1 ∧ d₁.2 = d₂.2) := by
    intro ⟨u, v⟩
    exact hne (Prod.ext u v)
  rcases a1 with u1 | u1 | u1 <;> rcases b1 with v1 | v1 | v1 <;>
    rcases a2 with u2 | u2 | u2 <;> rcases b2 with v2 | v2 | v2 <;>
      rw [u1, v1] at e₁ z1 <;> rw [u2, v2] at e₂ z2 <;>
        rw [u1, u2, v1, v2] at hne' <;> omega

theorem flipDisk_flipDisk (d : Disk) : flipDisk (flipDisk d) = d := by
  cases d <;> rfl

theorem flipDisk_ne (d : Disk) : flipDisk d ≠ d := by cases d <;> simp [flipDisk]

theorem eq_flipDisk_of_ne {d e : Disk} (h : e ≠ d) : e = flipDisk d := by
  cases d <;> cases e <;> simp_all [flipDisk]

/-! ### Lemmas about the pure scan description `runAux` -/

theorem runAux_mem {f : Coord → Option Disk} {cur : Disk} {c : Coord}
    {dx dy : Int} :
    ∀ {fuel k ps}, runAux f cur c dx dy fuel k = some ps → ∀ p ∈ ps,
      (∃ j : Nat, k ≤ j ∧ Coord.add? c (dx * j, dy * j) = some p) ∧
        f p = some (flipDisk cur) := by
  intro fuel
  induction fuel with
  | zero => intro k ps h; cases h
  | succ fuel ih =>
    intro k ps h p hp
    rw [runAux] at h
    cases hc' : Coord.add? c (dx * k, dy * k) with
    | none => simp only [hc'] at h; cases h
    | some c' =>
      simp only [hc'] at h
      cases hfc : f c' with
      | none => simp only [hfc] at h; cases h
      | some d =>
        simp only [hfc] at h
        by_cases hdc : d = cur
        · rw [if_pos hdc] at h
          injection h with h
          subst h
          cases hp
        · rw [if_neg hdc] at h
          cases hr : runAux f cur c dx dy fuel (k + 1) with
          | none => simp only [hr, Option.map_none'] at h; cases h
          | some qs =>
            simp only [hr, Option.map_some'] at h
            injection h with h
            subst h
            rcases List.mem_cons.mp hp with rfl | hq
            · exact ⟨⟨k, le_rfl, hc'⟩, by
                rw [hfc, eq_flipDisk_of_ne hdc]⟩
            · obtain ⟨⟨j, hj, hadd⟩, hval⟩ := ih hr p hq
              exact ⟨⟨j, by omega, hadd⟩, hval⟩

theorem runAux_nodup {f : Coord → Option Disk} {cur : Disk} {c : Coord}
    {dx dy : Int} (hd : validDir (dx, dy)) :
    ∀ {fuel k ps}, runAux f cur c dx dy fuel k = some ps → ps.Nodup := by
  intro fuel
  induction fuel with
  | zero => intro k ps h; cases h
  | succ fuel ih =>
    intro k ps h
    rw [runAux] at h
    cases hc' : Coord.add? c (dx * k, dy * k) with
    | none => simp only [hc'] at h; cases h
    | some c' =>
      simp only [hc'] at h
      cases hfc : f c' with
      | none => simp only [hfc] at h; cases h
      | some d =>
        simp only [hfc] at h
        by_cases hdc : d = cur
        · rw [if_pos hdc] at h
          injection h with h
          subst h
          exact List.nodup_nil
        · rw [if_neg hdc] at h
          cases hr : runAux f cur c dx dy fuel (k + 1) with
          | none => simp only [hr, Option.map_none'] at h; cases h
          | some qs =>
            simp only [hr, Option.map_some'] at h
            injection h with h
            subst h
            refine List.nodup_cons.mpr ⟨?_, ih hr⟩
            intro hmem
            obtain ⟨⟨j, hj, hadd⟩, _⟩ := runAux_mem hr c' hmem
            have := add?_offset_inj hd hadd hc'
            omega

theorem runAux_frame {f g : Coord → Option Disk} {cur : Disk} {c : Coord}
    {dx dy : Int} :
    ∀ {fuel k},
      (∀ j : Nat, k ≤ j → ∀ p, Coord.add? c (dx * j, dy * j) = some p →
        f p = g p) →
      runAux f cur c dx dy fuel k = runAux g cur c dx dy fuel k := by
  intro fuel
  induction fuel with
  | zero => intro k _; rfl
  | succ fuel ih =>
    intro k hagree
    rw [runAux, runAux]
    cases hc' : Coord.add? c (dx * k, dy * k) with
    | none => simp only [hc']
    | some c' =>
      simp only [hc', hagree k le_rfl c' hc']
      cases hgc : g c' with
      | none => simp only [hgc]
      | some d =>
        simp only [hgc]
        by_cases hdc : d = cur
        · rw [if_pos hdc, if_pos hdc]
        · rw [if_neg hdc, if_neg hdc,
            ih (fun j hj p hp => hagree j (by omega) p hp)]

/-! ### Lemmas about `flipCell` / `applyFlips` -/

theorem flipCell_ne {f : Coord → Option Disk} {p x : Coord} (h : x ≠ p) :
    flipCell f p x = f x := by
  unfold flipCell
  cases f p with
  | none => rfl
  | some d => exact Function.update_noteq h _ _

theorem flipCell_eq_update {f : Coord → Option Disk} {p : Coord} {d : Disk}
    (h : f p = some d) :
    flipCell f p = Function.update f p (some (flipDisk d)) := by
  unfold flipCell
  rw [h]

theorem applyFlips_nil (f : Coord → Option Disk) : applyFlips f [] = f := rfl

theorem applyFlips_cons (f : Coord → Option Disk) (p : Coord)
    (ps : List Coord) : applyFlips f (p :: ps) = applyFlips (flipCell f p) ps :=
  rfl

theorem applyFlips_append (f : Coord → Option Disk) (A B : List Coord) :
    applyFlips f (A ++ B) = applyFlips (applyFlips f A) B :=
  List.foldl_append _ _ _ _

theorem applyFlips_notMem {f : Coord → Option Disk} {ps : List Coord}
    {x : Coord} (h : x ∉ ps) : applyFlips f ps x = f x := by
  induction ps generalizing f with
  | nil => rfl
  | cons q qs ih =>
    rw [applyFlips_cons, ih (fun hx => h (List.mem_cons_of_mem q hx)),
      flipCell_ne (fun hx => h (by rw [hx]; exact List.mem_cons_self q qs))]

theorem applyFlips_mem {f : Coord → Option Disk} {ps : List Coord} {a : Disk}
    (hnd : ps.Nodup) (hval : ∀ p ∈ ps, f p = some a) {x : Coord}
    (hx : x ∈ ps) : applyFlips f ps x = some (flipDisk a) := by
  induction ps generalizing f with
  | nil => cases hx
  | cons q qs ih =>
    obtain ⟨hq, hqs⟩ := List.nodup_cons.mp hnd
    rw [applyFlips_cons]
    rcases List.mem_cons.mp hx with rfl | hxs
    · rw [applyFlips_notMem hq, flipCell_eq_update (hval x (by simp)),
        Function.update_same]
    · refine ih hqs (fun p hp => ?_) hxs
      rw [flipCell_ne (fun he => hq (by rw [← he]; exact hp)),
        hval p (List.mem_cons_of_mem q hp)]

/-! ### Lemmas about `abort` -/

theorem abort_nil (g : Coord → Option Disk) :
    (Board.mk g []).abort = ⟨g, []⟩ := rfl

theorem flip_eq {b : Board} {c' : Coord} {d : Disk}
    (h : b.disks c' = some d) :
    b.flip c' = ⟨Function.update b.disks c' (some (flipDisk d)),
      c' :: b.stack⟩ := by
  unfold Board.flip
  rw [h]

theorem flip_abort {b : Board} {c' : Coord} {d : Disk}
    (h : b.disks c' = some d) : (b.flip c').abort = b.abort := by
  rw [flip_eq h]
  unfold Board.abort
  congr 1
  show abortGo _ (c' :: b.stack) = _
  rw [abortGo]
  simp only [Function.update_same]
  rw [Function.update_idem, flipDisk_flipDisk, ← h, Function.update_eq_self]

/-! ### The stateful scan computes the pure description -/

theorem scanAux_eq {dx dy : Int} (hd : validDir (dx, dy)) (cur : Disk)
    (c : Coord) (g : Coord → Option Disk) :
    ∀ fuel k (h : Board), h.abort = ⟨g, []⟩ →
      (∀ j : Nat, k ≤ j → ∀ p, Coord.add? c (dx * j, dy * j) = some p →
        h.disks p = g p) →
      scanAux dx dy cur c fuel k h =
        match runAux g cur c dx dy fuel k with
        | some ps => (h.stack.length + ps.length, ⟨applyFlips h.disks ps, []⟩)
        | none => (0, ⟨g, []⟩) := by
  intro fuel
  induction fuel with
  | zero =>
    intro k h habort _
    rw [scanAux, runAux, habort]
  | succ fuel ih =>
    intro k h habort hagree
    rw [scanAux, runAux]
    cases hc' : Coord.add? c (dx * k, dy * k) with
    | none => simp only [hc', habort]
    | some c' =>
      have hval : h.disks c' = g c' := hagree k le_rfl c' hc'
      simp only [hc']
      cases hgc : g c' with
      | none =>
        have hdn : h.disks c' = none := by rw [hval, hgc]
        simp only [hdn, hgc, habort]
      | some d =>
        have hdisks : h.disks c' = some d := by rw [hval, hgc]
        simp only [hdisks, hgc]
        by_cases hdc : d = cur
        · rw [if_pos hdc, if_pos hdc]
          show (h.stack.length, ({ h with stack := [] } : Board)) = _
          simp [applyFlips_nil]
        · rw [if_neg hdc, if_neg hdc]
          have habort2 : (h.flip c').abort = ⟨g, []⟩ := by
            rw [flip_abort hdisks, habort]
          have hagree2 : ∀ j : Nat, k + 1 ≤ j → ∀ p,
              Coord.add? c (dx * j, dy * j) = some p →
              (h.flip c').disks p = g p := by
            intro j hj p hp
            have hpc : p ≠ c' := by
              intro he
              subst he
              have := add?_offset_inj hd hp hc'
              omega
            rw [flip_eq hdisks]
            show Function.update h.disks c' (some (flipDisk d)) p = g p
            rw [Function.update_noteq hpc]
            exact hagree j (by omega) p hp
          rw [ih (k + 1) (h.flip c') habort2 hagree2]
          cases hr : runAux g cur c dx dy fuel (k + 1) with
          | none => simp only [hr, Option.map_none']
          | some ps =>
            simp only [hr, Option.map_some']
            rw [flip_eq hdisks, applyFlips_cons, flipCell_eq_update hdisks]
            apply Prod.ext
            · show (c' :: h.stack).length + ps.length =
                h.stack.length + (c' :: ps).length
              simp only [List.length_cons]
              omega
            · rfl

/-! ### Per-direction and whole-move corollaries -/

theorem dirFlips_mem {f : Coord → Option Disk} {cur : Disk} {c : Coord}
    {d : Int × Int} {p : Coord} (hp : p ∈ dirFlips f cur c d) :
    (∃ j : Nat, 1 ≤ j ∧ Coord.add? c (d.1 * j, d.2 * j) = some p) ∧
      f p = some (flipDisk cur) := by
  unfold dirFlips at hp
  cases hr : runAux f cur c d.1 d.2 9 1 with
  | none => rw [hr] at hp; cases hp
  | some ps =>
    rw [hr] at hp
    exact runAux_mem hr p hp

theorem dirFlips_nodup {f : Coord → Option Disk} {cur : Disk} {c : Coord}
    {d : Int × Int} (hd : validDir d) : (dirFlips f cur c d).Nodup := by
  unfold dirFlips
  cases hr : runAux f cur c d.1 d.2 9 1 with
  | none => exact List.nodup_nil
  | some ps => exact runAux_nodup (by simpa using hd) hr

theorem dirFlips_frame {f g : Coord → Option Disk} {cur : Disk} {c : Coord}
    {d : Int × Int}
    (h : ∀ j : Nat, 1 ≤ j → ∀ p, Coord.add? c (d.1 * j, d.2 * j) = some p →
      f p = g p) : dirFlips f cur c d = dirFlips g cur c d := by
  unfold dirFlips
  rw [runAux_frame h]

theorem scanAux_start {d : Int × Int} (hd : validDir d) (cur : Disk)
    (c : Coord) (g : Coord → Option Disk) :
    scanAux d.1 d.2 cur c 9 1 ⟨g, []⟩ =
      ((dirFlips g cur c d).length,
        ⟨applyFlips g (dirFlips g cur c d), []⟩) := by
  rw [scanAux_eq (by simpa using hd) cur c g 9 1 ⟨g, []⟩ rfl
    (fun _ _ _ _ => rfl)]
  unfold dirFlips
  cases hr : runAux g cur c d.1 d.2 9 1 with
  | none => simp [applyFlips_nil]
  | some ps => simp

theorem flipsFor_nil (f : Coord → Option Disk) (cur : Disk) (c : Coord) :
    flipsFor f cur c [] = [] := rfl

theorem flipsFor_cons (f : Coord → Option Disk) (cur : Disk) (c : Coord)
    (d : Int × Int) (ds : List (Int × Int)) :
    flipsFor f cur c (d :: ds) = dirFlips f cur c d ++ flipsFor f cur c ds :=
  List.flatMap_cons _ _ _

theorem flipsFor_mem {f : Coord → Option Disk} {cur : Disk} {c : Coord}
    {D : List (Int × Int)} {p : Coord} (hp : p ∈ flipsFor f cur c D) :
    ∃ d ∈ D, (∃ j : Nat, 1 ≤ j ∧ Coord.add? c (d.1 * j, d.2 * j) = some p) ∧
      f p = some (flipDisk cur) := by
  unfold flipsFor at hp
  obtain ⟨d, hd, hmem⟩ := List.mem_flatMap.mp hp
  exact ⟨d, hd, dirFlips_mem hmem⟩

theorem flipsFor_congr {f g : Coord → Option Disk} {cur : Disk} {c : Coord}
    {D : List (Int × Int)}
    (h : ∀ d ∈ D, dirFlips f cur c d = dirFlips g cur c d) :
    flipsFor f cur c D = flipsFor g cur c D := by
  unfold flipsFor
  exact List.flatMap_congr (by
    intro d hd
    exact h d hd)

theorem flipsFor_nodup {f : Coord → Option Disk} {cur : Disk} {c : Coord} :
    ∀ {D : List (Int × Int)}, (∀ d ∈ D, validDir d) → D.Nodup →
      (flipsFor f cur c D).Nodup := by
  intro D
  induction D with
  | nil => intro _ _; exact List.nodup_nil
  | cons d ds ih =>
    intro hval hnd
    rw [flipsFor_cons]
    obtain ⟨hd, hds⟩ := List.nodup_cons.mp hnd
    refine (dirFlips_nodup (hval d (List.mem_cons_self d ds))).append
      (ih (fun e he => hval e (List.mem_cons_of_mem d he)) hds) ?_
    intro p hp hq
    obtain ⟨⟨j, hj, haddj⟩, _⟩ := dirFlips_mem hp
    obtain ⟨e, he, ⟨m, hm, haddm⟩, _⟩ := flipsFor_mem hq
    exact rays_disjoint (hval d (List.mem_cons_self d ds))
      (hval e (List.mem_cons_of_mem d he))
      (fun hde => hd (hde ▸ he)) hj hm haddj haddm

theorem flipsFor_not_center {f : Coord → Option Disk} {cur : Disk} {c : Coord}
    {D : List (Int × Int)} (hval : ∀ d ∈ D, validDir d) :
    c ∉ flipsFor f cur c D := by
  intro hc
  obtain ⟨d, hd, ⟨j, hj, hadd⟩, _⟩ := flipsFor_mem hc
  exact add?_ne_center (hval d hd) hj hadd rfl

theorem scanDirs_eq (cur : Disk) (c : Coord) :
    ∀ (D : List (Int × Int)), (∀ d ∈ D, validDir d) → D.Nodup →
      ∀ g, scanDirs cur c D ⟨g, []⟩ =
        ((flipsFor g cur c D).length,
          ⟨applyFlips g (flipsFor g cur c D), []⟩) := by
  intro D
  induction D with
  | nil =>
    intro _ _ g
    simp [scanDirs, flipsFor_nil, applyFlips_nil]
  | cons d ds ih =>
    intro hval hnd g
    have hd : validDir d := hval d (List.mem_cons_self d ds)
    obtain ⟨hdn, hdsn⟩ := List.nodup_cons.mp hnd
    have hframe : ∀ e ∈ ds,
        dirFlips (applyFlips g (dirFlips g cur c d)) cur c e =
          dirFlips g cur c e := by
      intro e he
      refine dirFlips_frame (fun j hj p hp => applyFlips_notMem ?_)
      intro hmem
      obtain ⟨⟨m, hm, haddm⟩, _⟩ := dirFlips_mem hmem
      exact rays_disjoint hd (hval e (List.mem_cons_of_mem d he))
        (fun hde => hdn (hde ▸ he)) hm hj haddm hp
    rw [scanDirs]
    simp only [scanAux_start hd cur c g]
    rw [ih (fun e he => hval e (List.mem_cons_of_mem d he)) hdsn]
    rw [flipsFor_congr hframe]
    rw [flipsFor_cons, ← applyFlips_append]
    simp [List.length_append]

/-- The central characterization of `Board::try_move` on a board whose flip
stack is empty: starting from disk map `g`, the occupied case errors with
`NotEmpty`; otherwise the committed flips are exactly `flipsFor g dk c dirs8`
(the concatenated opponent runs that terminate in a same-side disk), the
move succeeds if and only if that list is nonempty, the returned board is
`g` with those cells flipped and the mover's disk placed at `c`, and on
failure the working board has been restored to `g`. -/
theorem tryMoveFull_eq (g : Coord → Option Disk) (c : Coord) (dk : Disk) :
    (Board.mk g []).tryMoveFull c dk =
      if (g c).isSome then (Except.error MoveErr.NotEmpty, ⟨g, []⟩)
      else if flipsFor g dk c dirs8 = [] then
        (Except.error MoveErr.NoDiskFlipped, ⟨g, []⟩)
      else
        (Except.ok ⟨Function.update (applyFlips g (flipsFor g dk c dirs8)) c
            (some dk), []⟩,
          ⟨Function.update (applyFlips g (flipsFor g dk c dirs8)) c
            (some dk), []⟩) := by
  unfold Board.tryMoveFull
  simp only [Board.getDisk]
  by_cases hocc : (g c).isSome
  · rw [if_pos hocc, if_pos hocc]
  · rw [if_neg hocc, if_neg hocc]
    have hscan := scanDirs_eq dk c dirs8 dirs8_valid dirs8_nodup g
    rw [hscan]
    by_cases hnil : flipsFor g dk c dirs8 = []
    · rw [if_pos hnil, hnil]
      simp [applyFlips_nil, Board.place]
    · rw [if_neg hnil]
      have hpos : 0 < (flipsFor g dk c dirs8).length :=
        List.length_pos.mpr hnil
      rw [if_pos hpos]
      simp [Board.place]

/-! ### Counting lemmas -/

theorem mem_allCoords (x : Coord) : x ∈ allCoords := by
  refine List.mem_flatMap.mpr ⟨x.1, List.mem_finRange x.1, ?_⟩
  exact List.mem_map.mpr ⟨x.2, List.mem_finRange x.2, rfl⟩

theorem allCoords_nodup : allCoords.Nodup := by decide

theorem countP_update_succ :
    ∀ (l : List Coord), l.Nodup → ∀ {c : Coord}, c ∈ l →
      ∀ (p q : Coord → Bool), (∀ x, x ≠ c → p x = q x) →
        p c = false → q c = true → l.countP q = l.countP p + 1 := by
  intro l
  induction l with
  | nil => intro _ _ hc; cases hc
  | cons a t ih =>
    intro hl c hc p q hpq hp hq
    obtain ⟨han, htn⟩ := List.nodup_cons.mp hl
    rw [List.countP_cons, List.countP_cons]
    rcases List.mem_cons.mp hc with rfl | hct
    · rw [hp, hq, if_pos rfl, if_neg (by decide)]
      have heq : t.countP p = t.countP q := by
        apply List.countP_congr
        intro x hx
        rw [hpq x (fun he => han (he ▸ hx))]
      omega
    · have hne : a ≠ c := fun he => han (he ▸ hct)
      rw [hpq a hne, ih htn hct p q hpq hp hq]
      omega

theorem countP_mem_nodup :
    ∀ (s : List Coord), s.Nodup →
      allCoords.countP (fun x => decide (x ∈ s)) = s.length := by
  intro s
  induction s with
  | nil => simp
  | cons a t ih =>
    intro hs
    obtain ⟨hat, htn⟩ := List.nodup_cons.mp hs
    rw [countP_update_succ allCoords allCoords_nodup (mem_allCoords a)
      (fun x => decide (x ∈ t)) (fun x => decide (x ∈ a :: t)) ?_ ?_ ?_,
      ih htn, List.length_cons]
    · intro x hx
      simp [List.mem_cons, hx]
    · simpa using hat
    · simp

theorem countD_update {f : Coord → Option Disk} {c : Coord}
    {v : Option Disk} {d : Disk} (hold : f c ≠ some d) (hnew : v = some d) :
    countD (Function.update f c v) d = countD f d + 1 := by
  unfold countD
  refine countP_update_succ allCoords allCoords_nodup (mem_allCoords c)
    _ _ ?_ ?_ ?_
  · intro x hx
    rw [Function.update_noteq hx]
  · simpa using hold
  · rw [Function.update_same, hnew]
    simp

theorem countD_applyFlips {f : Coord → Option Disk} {cur : Disk} :
    ∀ {ps : List Coord}, ps.Nodup →
      (∀ p ∈ ps, f p = some (flipDisk cur)) →
      countD (applyFlips f ps) cur = countD f cur + ps.length := by
  intro ps
  induction ps generalizing f with
  | nil => intro _ _; simp [applyFlips_nil]
  | cons q qs ih =>
    intro hnd hval
    obtain ⟨hq, hqs⟩ := List.nodup_cons.mp hnd
    rw [applyFlips_cons,
      flipCell_eq_update (hval q (List.mem_cons_self q qs)),
      flipDisk_flipDisk]
    have hcnt : countD (Function.update f q (some cur)) cur =
        countD f cur + 1 := by
      refine countD_update ?_ rfl
      rw [hval q (List.mem_cons_self q qs)]
      intro he
      exact flipDisk_ne cur (Option.some_inj.mp he)
    rw [ih hqs ?_, hcnt, List.length_cons]
    · omega
    · intro p hp
      rw [Function.update_noteq (fun he => hq (by rw [← he]; exact hp)),
        hval p (List.mem_cons_of_mem q hp)]

/-! ### Claim theorems for the board.rs move engine -/

/-- **C1.**  For every board `b` (with an empty transactional stack, as every
reachable board has), playable position `c` and moving disk color `dk`:
if `Board::try_move` succeeds with board `b'`, then the moving side's disk
count of `b'` equals its count on `b` plus the number of flipped cells
plus 1 (the spec measures the per-color count, as in its scenario
"5 Black, 1 White"), and the mover's disk sits at `c`; and if the attempt
fails, the working board (the mutated clone, exposed as the second component
of `tryMoveFull`) has been restored bit-identically to the input board, so
the caller's board is unchanged. -/
theorem spec_C1 (b : Board) (c : Coord) (dk : Disk) (hb : b.stack = []) :
    (∀ b', b.tryMove c dk = Except.ok b' →
      countD b'.disks dk =
        countD b.disks dk + flippedCount b.disks b'.disks c + 1 ∧
      b'.disks c = some dk) ∧
    (∀ e, b.tryMove c dk = Except.error e → (b.tryMoveFull c dk).2 = b) := by
  obtain ⟨g, st⟩ := b
  simp only at hb
  subst hb
  have hfull := tryMoveFull_eq g c dk
  constructor
  · intro b' hok
    unfold Board.tryMove at hok
    rw [hfull] at hok
    by_cases hocc : (g c).isSome
    · rw [if_pos hocc] at hok
      cases hok
    · rw [if_neg hocc] at hok
      by_cases hnil : flipsFor g dk c dirs8 = []
      · rw [if_pos hnil] at hok
        cases hok
      · rw [if_neg hnil] at hok
        injection hok with hok
        subst hok
        have hgc : g c = none := Option.not_isSome_iff_eq_none.mp hocc
        have hnodup : (flipsFor g dk c dirs8).Nodup :=
          flipsFor_nodup dirs8_valid dirs8_nodup
        have hvals : ∀ p ∈ flipsFor g dk c dirs8,
            g p = some (flipDisk dk) := by
          intro p hp
          obtain ⟨d, _, _, hval⟩ := flipsFor_mem hp
          exact hval
        have hcenter : c ∉ flipsFor g dk c dirs8 :=
          flipsFor_not_center dirs8_valid
        have hAc : applyFlips g (flipsFor g dk c dirs8) c = g c :=
          applyFlips_notMem hcenter
        refine ⟨?_, ?_⟩
        · show countD (Function.update
            (applyFlips g (flipsFor g dk c dirs8)) c (some dk)) dk = _
          rw [countD_update (by rw [hAc, hgc]; intro h; cases h) rfl,
            countD_applyFlips hnodup hvals]
          have hflc : flippedCount g (Function.update
              (applyFlips g (flipsFor g dk c dirs8)) c (some dk)) c =
              (flipsFor g dk c dirs8).length := by
            unfold flippedCount
            rw [← countP_mem_nodup (flipsFor g dk c dirs8) hnodup]
            apply List.countP_congr
            intro x _
            by_cases hxc : x = c
            · subst hxc
              simp [hcenter]
            · rw [Function.update_noteq hxc]
              by_cases hxm : x ∈ flipsFor g dk c dirs8
              · have h1 : applyFlips g (flipsFor g dk c dirs8) x =
                    some dk := by
                  rw [applyFlips_mem hnodup hvals hxm, flipDisk_flipDisk]
                have h2 : g x = some (flipDisk dk) := hvals x hxm
                simp only [hxc, hxm, h1, h2, decide_eq_true_eq,
                  decide_eq_decide]
                constructor
                · intro _; trivial
                · intro _
                  refine ⟨hxc, fun he => ?_⟩
                  exact flipDisk_ne dk (Option.some_inj.mp he)
              · have h1 : applyFlips g (flipsFor g dk c dirs8) x = g x :=
                  applyFlips_notMem hxm
                simp [hxc, hxm, h1]
          rw [hflc]
        · simp
  · intro e herr
    unfold Board.tryMove at herr
    rw [hfull] at herr
    show (Board.tryMoveFull ⟨g, []⟩ c dk).2 = _
    rw [hfull]
    by_cases hocc : (g c).isSome
    · rw [if_pos hocc]
    · rw [if_neg hocc]
      by_cases hnil : flipsFor g dk c dirs8 = []
      · rw [if_pos hnil]
      · rw [if_neg hocc, if_neg hnil] at herr
        cases herr

/-- Witness for C1 at the initial board, Black playing f5. -/
theorem spec_C1_witness :
    Board.init.stack = [] ∧
    ((∀ b', Board.init.tryMove (5, 4) Disk.Black = Except.ok b' →
      countD b'.disks Disk.Black =
        countD Board.init.disks Disk.Black +
          flippedCount Board.init.disks b'.disks (5, 4) + 1 ∧
      b'.disks (5, 4) = some Disk.Black) ∧
    (∀ e, Board.init.tryMove (5, 4) Disk.Black = Except.error e →
      (Board.init.tryMoveFull (5, 4) Disk.Black).2 = Board.init)) :=
  ⟨rfl, spec_C1 Board.init (5, 4) Disk.Black rfl⟩

theorem flipsFor_eq_nil_iff {f : Coord → Option Disk} {cur : Disk}
    {c : Coord} {D : List (Int × Int)} :
    flipsFor f cur c D = [] ↔ ∀ d ∈ D, dirFlips f cur c d = [] := by
  unfold flipsFor
  exact List.flatMap_eq_nil_iff

theorem dirFlips_eq_nil_iff {f : Coord → Option Disk} {cur : Disk}
    {c : Coord} {d : Int × Int} :
    dirFlips f cur c d = [] ↔
      ∀ ps, runAux f cur c d.1 d.2 9 1 = some ps → ps = [] := by
  unfold dirFlips
  cases hr : runAux f cur c d.1 d.2 9 1 with
  | none =>
    simp only [Option.getD_none, true_iff]
    intro ps hps
    cases hps
  | some ps =>
    simp only [Option.getD_some]
    constructor
    · rintro rfl qs hqs
      injection hqs with hqs
      exact hqs.symm
    · intro h
      exact h ps rfl

/-- **C2.**  Error taxonomy of `Board::try_move` (on a board with an empty
transactional stack): the attempt fails with `NotEmpty` exactly when the
target cell is occupied; on an empty cell it fails with `NoDiskFlipped`
exactly when the total set of committed flips over the eight directional
scans is empty — equivalently, when no direction's outward run of opponent
disks terminates in a same-side disk after at least one opponent disk — and
succeeds otherwise. -/
theorem spec_C2 (b : Board) (c : Coord) (dk : Disk) (hb : b.stack = []) :
    (b.tryMove c dk = Except.error MoveErr.NotEmpty ↔ (b.disks c).isSome) ∧
    (b.disks c = none →
      (b.tryMove c dk = Except.error MoveErr.NoDiskFlipped ↔
        flipsFor b.disks dk c dirs8 = []) ∧
      (flipsFor b.disks dk c dirs8 = [] ↔
        ∀ d ∈ dirs8, ∀ ps, runAux b.disks dk c d.1 d.2 9 1 = some ps →
          ps = []) ∧
      (flipsFor b.disks dk c dirs8 ≠ [] →
        ∃ b', b.tryMove c dk = Except.ok b')) := by
  obtain ⟨g, st⟩ := b
  simp only at hb
  subst hb
  rw [show (Board.mk g []).disks = g from rfl]
  have hfull := tryMoveFull_eq g c dk
  have htm : Board.tryMove ⟨g, []⟩ c dk = (Board.tryMoveFull ⟨g, []⟩ c dk).1 :=
    rfl
  refine ⟨?_, ?_⟩
  · rw [htm, hfull]
    by_cases hocc : (g c).isSome
    · rw [if_pos hocc]
      simp [hocc]
    · rw [if_neg hocc]
      by_cases hnil : flipsFor g dk c dirs8 = []
      · rw [if_pos hnil]
        constructor
        · intro he
          injection he with he
          cases he
        · intro hcc
          exact absurd hcc hocc
      · rw [if_neg hnil]
        constructor
        · intro he
          cases he
        · intro hcc
          exact absurd hcc hocc
  · intro hgc
    have hocc : ¬(g c).isSome = true := by rw [hgc]; simp
    refine ⟨?_, ?_, ?_⟩
    · rw [htm, hfull, if_neg hocc]
      by_cases hnil : flipsFor g dk c dirs8 = []
      · rw [if_pos hnil]
        simp [hnil]
      · rw [if_neg hnil]
        constructor
        · intro he
          cases he
        · intro h
          exact absurd h hnil
    · rw [flipsFor_eq_nil_iff]
      constructor
      · intro h d hd
        have := h d hd
        rw [dirFlips_eq_nil_iff] at this
        exact this
      · intro h d hd
        rw [dirFlips_eq_nil_iff]
        exact h d hd
    · intro hnil
      rw [htm, hfull, if_neg hocc, if_neg hnil]
      exact ⟨_, rfl⟩

/-- Witness for C2 at the initial board, Black playing f5. -/
theorem spec_C2_witness :
    Board.init.stack = [] ∧
    ((Board.init.tryMove (5, 4) Disk.Black = Except.error MoveErr.NotEmpty ↔
      (Board.init.disks (5, 4)).isSome) ∧
    (Board.init.disks (5, 4) = none →
      (Board.init.tryMove (5, 4) Disk.Black =
          Except.error MoveErr.NoDiskFlipped ↔
        flipsFor Board.init.disks Disk.Black (5, 4) dirs8 = []) ∧
      (flipsFor Board.init.disks Disk.Black (5, 4) dirs8 = [] ↔
        ∀ d ∈ dirs8, ∀ ps,
          runAux Board.init.disks Disk.Black (5, 4) d.1 d.2 9 1 = some ps →
            ps = []) ∧
      (flipsFor Board.init.disks Disk.Black (5, 4) dirs8 ≠ [] →
        ∃ b', Board.init.tryMove (5, 4) Disk.Black = Except.ok b'))) :=
  ⟨rfl, spec_C2 Board.init (5, 4) Disk.Black rfl⟩

/-- **C3.**  Frame property of an aborted direction: if the outward scan from
`c` along direction `d` does not terminate in a same-side disk
(`runAux … = none`), then a successful `try_move` leaves every cell on that
direction's ray exactly as it was on the input board — no provisional flip
of the aborted direction leaks into the returned board. -/
theorem spec_C3 (b : Board) (c : Coord) (dk : Disk) (d : Int × Int)
    (hb : b.stack = []) (hd : d ∈ dirs8)
    (habort : runAux b.disks dk c d.1 d.2 9 1 = none) :
    ∀ b', b.tryMove c dk = Except.ok b' →
      ∀ (j : Nat), 1 ≤ j → ∀ p, Coord.add? c (d.1 * j, d.2 * j) = some p →
        b'.disks p = b.disks p := by
  obtain ⟨g, st⟩ := b
  simp only at hb habort
  subst hb
  intro b' hok j hj p hp
  unfold Board.tryMove at hok
  rw [tryMoveFull_eq g c dk] at hok
  by_cases hocc : (g c).isSome
  · rw [if_pos hocc] at hok
    cases hok
  · rw [if_neg hocc] at hok
    by_cases hnil : flipsFor g dk c dirs8 = []
    · rw [if_pos hnil] at hok
      cases hok
    · rw [if_neg hnil] at hok
      injection hok with hok
      subst hok
      show Function.update (applyFlips g (flipsFor g dk c dirs8)) c
        (some dk) p = g p
      have hpc : p ≠ c := add?_ne_center (dirs8_valid d hd) hj hp
      rw [Function.update_noteq hpc]
      apply applyFlips_notMem
      intro hmem
      obtain ⟨e, he, hpe⟩ := List.mem_flatMap.mp hmem
      by_cases hde : e = d
      · subst hde
        unfold dirFlips at hpe
        rw [habort] at hpe
        cases hpe
      · obtain ⟨⟨m, hm, haddm⟩, _⟩ := dirFlips_mem hpe
        exact rays_disjoint (dirs8_valid e he) (dirs8_valid d hd) hde
          hm hj haddm hp

/-- Witness for C3 at the initial board: Black plays f5 and the northward
scan (direction `(0, -1)`, towards f4) hits an empty cell, so every cell
on that ray stays as on the initial board; checked at f4 itself. -/
theorem spec_C3_witness :
    Board.init.stack = [] ∧ (0, -1) ∈ dirs8 ∧
    runAux Board.init.disks Disk.Black (5, 4) 0 (-1) 9 1 = none ∧
    (∀ b', Board.init.tryMove (5, 4) Disk.Black = Except.ok b' →
      ∀ (j : Nat), 1 ≤ j → ∀ p,
        Coord.add? (5, 4) ((0 : Int) * j, (-1 : Int) * j) = some p →
          b'.disks p = Board.init.disks p) :=
  ⟨rfl, by decide, by decide,
    spec_C3 Board.init (5, 4) Disk.Black (0, -1) rfl (by decide) (by decide)⟩


/-- **C4, counterexample.**  The claim states disk counts of 5 Black and
1 White after Black plays f5 from the initial position; the code produces
the listed cells d5, e4, e5, f5 Black and d4 White — which is 4 Black, not
5. -/
theorem spec_C4_counterexample :
    (Board.init.tryMove (5, 4) Disk.Black).map
        (fun b => countD b.disks Disk.Black) = Except.ok 4 ∧
      (4 : Nat) ≠ 5 := by
  constructor
  · decide
  · decide

/-- **C4, amended.**  From the canonical initial position, a Black move at
f5 succeeds, flips the White disk at e5, and yields a board with Black at
d5, e4, e5, f5 and White at d4 only, with disk counts 4 Black and 1 White. -/
theorem spec_C4 :
    countD Board.init.disks Disk.Black = 2 ∧
    countD Board.init.disks Disk.White = 2 ∧
    Board.init.disks (4, 4) = some Disk.White ∧
    Board.init.tryMove (5, 4) Disk.Black = Except.ok boardAfterF5 ∧
    boardAfterF5.disks (4, 4) = some Disk.Black ∧
    (∀ x : Coord, boardAfterF5.disks x = some Disk.Black ↔
      (x = (3, 4) ∨ x = (4, 3) ∨ x = (4, 4) ∨ x = (5, 4))) ∧
    (∀ x : Coord, boardAfterF5.disks x = some Disk.White ↔ x = (3, 3)) ∧
    countD boardAfterF5.disks Disk.Black = 4 ∧
    countD boardAfterF5.disks Disk.White = 1 := by
  refine ⟨by decide, by decide, by decide, by decide, by decide, ?_, ?_,
    by decide, by decide⟩
  · decide
  · decide

end BoardRS

namespace LibRS

/-! ### C10 machinery: the sentinel border stays empty, scans never panic -/

theorem idx_lt {c r : Int} (hc0 : 0 ≤ c) (hc9 : c ≤ 9) (hr0 : 0 ≤ r)
    (hr9 : r ≤ 9) : idx c r < 100 := by
  unfold idx
  omega

theorem idx_inj {c r c' r' : Int} (hc0 : 0 ≤ c) (hc9 : c ≤ 9) (hr0 : 0 ≤ r)
    (hr9 : r ≤ 9) (hc0' : 0 ≤ c') (hc9' : c' ≤ 9) (hr0' : 0 ≤ r')
    (hr9' : r' ≤ 9) (h : idx c r = idx c' r') : c = c' ∧ r = r' := by
  unfold idx at h
  omega

/-- On a border-clear board, a valid cell on the sentinel ring is empty. -/
theorem borderClear.border_none {b : Board} (hb : borderClear b) {c r : Int}
    (hc0 : 0 ≤ c) (hc9 : c ≤ 9) (hr0 : 0 ≤ r) (hr9 : r ≤ 9)
    (hborder : c = 0 ∨ c = 9 ∨ r = 0 ∨ r = 9) : b.getDisk c r = none := by
  have hlt : idx c r < 100 := idx_lt hc0 hc9 hr0 hr9
  have := hb.2 ⟨idx c r, hlt⟩ (by
    show idx c r % 10 = 0 ∨ idx c r % 10 = 9 ∨ idx c r / 10 = 0 ∨
      idx c r / 10 = 9
    unfold idx
    omega)
  exact this

/-- On a border-clear board, an occupied valid cell is playable. -/
theorem borderClear.occupied_inPlay {b : Board} (hb : borderClear b)
    {c r : Int} (hc0 : 0 ≤ c) (hc9 : c ≤ 9) (hr0 : 0 ≤ r) (hr9 : r ≤ 9)
    {d : Disk} (h : b.getDisk c r = some d) : inPlay c r := by
  by_contra hni
  have hborder : c = 0 ∨ c = 9 ∨ r = 0 ∨ r = 9 := by
    unfold inPlay at hni
    omega
  rw [hb.border_none hc0 hc9 hr0 hr9 hborder] at h
  cases h


theorem lscan_no_panic {b : Board} (hb : borderClear b) {dx dy : Int}
    (hd : BoardRS.validDir (dx, dy)) (cur opp : Disk) :
    ∀ (fuel : Nat) (c r : Int), inPlay c r → rem dx dy c r ≤ fuel →
      lscan b dx dy cur opp fuel c r ≠ ScanEnd.panic := by
  obtain ⟨hd1, hd2, hd0⟩ := hd
  simp only at hd1 hd2 hd0
  intro fuel
  induction fuel with
  | zero =>
    intro c r hin hrem
    exfalso
    unfold inPlay at hin
    unfold rem at hrem
    rcases hd1 with rfl | rfl | rfl <;> rcases hd2 with rfl | rfl | rfl <;>
      simp_all <;> omega
  | succ fuel ih =>
    intro c r hin hrem
    have hin' := hin
    unfold inPlay at hin'
    rw [lscan]
    have hbound : 0 ≤ c + dx ∧ c + dx ≤ 9 ∧ 0 ≤ r + dy ∧ r + dy ≤ 9 := by
      rcases hd1 with rfl | rfl | rfl <;> rcases hd2 with rfl | rfl | rfl <;>
        omega
    rw [if_pos hbound]
    cases hg : b.getDisk (c + dx) (r + dy) with
    | none => simp only [hg]; intro h; cases h
    | some d =>
      simp only [hg]
      by_cases hdc : d = cur
      · rw [if_pos hdc]
        intro h; cases h
      · rw [if_neg hdc]
        have hin2 : inPlay (c + dx) (r + dy) :=
          hb.occupied_inPlay hbound.1 hbound.2.1 hbound.2.2.1 hbound.2.2.2 hg
        have hrem2 : rem dx dy (c + dx) (r + dy) ≤ fuel := by
          have hne : ¬(dx = 0 ∧ dy = 0) := hd0
          unfold inPlay at hin2
          unfold rem at hrem ⊢
          rcases hd1 with rfl | rfl | rfl <;>
            rcases hd2 with rfl | rfl | rfl <;> simp_all <;> omega
        have := ih (c + dx) (r + dy) hin2 hrem2
        cases hrec : lscan b dx dy cur opp fuel (c + dx) (r + dy) with
        | panic => exact absurd hrec this
        | endCur ps => simp only [hrec]; intro h; cases h
        | endEmpty => simp only [hrec]; intro h; cases h

theorem rem_le_twelve {dx dy c r : Int} (hin : inPlay c r) :
    rem dx dy c r ≤ 12 := by
  unfold inPlay at hin
  unfold rem
  rcases em (dx = 1) with h1 | h1
  · rw [if_pos h1]; omega
  · rw [if_neg h1]
    rcases em (dx = -1) with h2 | h2
    · rw [if_pos h2]; omega
    · rw [if_neg h2]
      rcases em (dy = 1) with h3 | h3
      · rw [if_pos h3]; omega
      · rw [if_neg h3]; omega

theorem flipPositions_isSome {b : Board} (hb : borderClear b) {c r : Int}
    (hin : inPlay c r) {dx dy : Int} (hd : BoardRS.validDir (dx, dy))
    (cur opp : Disk) : (b.flipPositions c r dx dy cur opp).isSome := by
  unfold Board.flipPositions
  cases hs : lscan b dx dy cur opp 12 c r with
  | panic => exact absurd hs (lscan_no_panic hb hd cur opp 12 c r hin
      (rem_le_twelve hin))
  | endCur ps => rfl
  | endEmpty => rfl

theorem collectFlips_isSome {b : Board} (hb : borderClear b) {c r : Int}
    (hin : inPlay c r) (cur opp : Disk) :
    ∀ (D : List (Int × Int)), (∀ d ∈ D, BoardRS.validDir d) →
      (collectFlips b c r cur opp D).isSome := by
  intro D
  induction D with
  | nil => intro _; rfl
  | cons d ds ih =>
    intro hval
    rw [collectFlips]
    have h1 := @flipPositions_isSome _ hb _ _ hin d.1 d.2
      (by simpa using hval d (List.mem_cons_self d ds)) cur opp
    cases hfp : b.flipPositions c r d.1 d.2 cur opp with
    | none => rw [hfp] at h1; cases h1
    | some ps =>
      have h2 := ih (fun e he => hval e (List.mem_cons_of_mem d he))
      cases hcf : collectFlips b c r cur opp ds with
      | none => rw [hcf] at h2; cases h2
      | some L => simp [hcf]

/-- Cells returned by a directional scan: valid coordinates that hold the
opponent's disk on the scanned board. -/
theorem lscan_mem {b : Board} {dx dy : Int} {cur opp : Disk}
    (hco : cur ≠ opp) :
    ∀ {fuel : Nat} {c r : Int} {ps : List (Int × Int)},
      lscan b dx dy cur opp fuel c r = ScanEnd.endCur ps → ∀ p ∈ ps,
        (0 ≤ p.1 ∧ p.1 ≤ 9 ∧ 0 ≤ p.2 ∧ p.2 ≤ 9) ∧
          b.getDisk p.1 p.2 = some opp := by
  intro fuel
  induction fuel with
  | zero => intro c r ps h; cases h
  | succ fuel ih =>
    intro c r ps h p hp
    rw [lscan] at h
    by_cases hbound : 0 ≤ c + dx ∧ c + dx ≤ 9 ∧ 0 ≤ r + dy ∧ r + dy ≤ 9
    · rw [if_pos hbound] at h
      cases hg : b.getDisk (c + dx) (r + dy) with
      | none => simp only [hg] at h; cases h
      | some d =>
        simp only [hg] at h
        by_cases hdc : d = cur
        · rw [if_pos hdc] at h
          injection h with h
          subst h
          cases hp
        · rw [if_neg hdc] at h
          cases hrec : lscan b dx dy cur opp fuel (c + dx) (r + dy) with
          | panic => simp only [hrec] at h; cases h
          | endEmpty => simp only [hrec] at h; cases h
          | endCur qs =>
            simp only [hrec] at h
            injection h with h
            subst h
            rcases List.mem_cons.mp hp with rfl | hq
            · refine ⟨hbound, ?_⟩
              rw [hg]
              congr 1
              cases d <;> cases cur <;> cases opp <;> simp_all
            · exact ih hrec p hq
    · rw [if_neg hbound] at h
      cases h

theorem flipPositions_mem {b : Board} {c r dx dy : Int} {cur opp : Disk}
    (hco : cur ≠ opp) {ps : List (Int × Int)}
    (h : b.flipPositions c r dx dy cur opp = some ps) : ∀ p ∈ ps,
      (0 ≤ p.1 ∧ p.1 ≤ 9 ∧ 0 ≤ p.2 ∧ p.2 ≤ 9) ∧
        b.getDisk p.1 p.2 = some opp := by
  unfold Board.flipPositions at h
  cases hs : lscan b dx dy cur opp 12 c r with
  | panic => rw [hs] at h; cases h
  | endEmpty =>
    rw [hs] at h
    injection h with h
    subst h
    intro p hp
    cases hp
  | endCur qs =>
    rw [hs] at h
    injection h with h
    subst h
    exact lscan_mem hco hs

theorem collectFlips_mem {b : Board} {c r : Int} {cur opp : Disk}
    (hco : cur ≠ opp) :
    ∀ {D : List (Int × Int)} {L : List (Int × Int)},
      collectFlips b c r cur opp D = some L → ∀ p ∈ L,
        (0 ≤ p.1 ∧ p.1 ≤ 9 ∧ 0 ≤ p.2 ∧ p.2 ≤ 9) ∧
          b.getDisk p.1 p.2 = some opp := by
  intro D
  induction D with
  | nil =>
    intro L h p hp
    injection h with h
    subst h
    cases hp
  | cons d ds ih =>
    intro L h p hp
    rw [collectFlips] at h
    cases hfp : b.flipPositions c r d.1 d.2 cur opp with
    | none => rw [hfp] at h; cases h
    | some ps =>
      rw [hfp] at h
      cases hcf : collectFlips b c r cur opp ds with
      | none => rw [hcf] at h; cases h
      | some M =>
        rw [hcf] at h
        injection h with h
        subst h
        rcases List.mem_append.mp hp with hmem | hmem
        · exact flipPositions_mem hco hfp p hmem
        · exact ih hcf p hmem

/-- Setting a playable cell preserves the border-clear invariant. -/
theorem borderClear_setDisk {b : Board} (hb : borderClear b) {c r : Int}
    (hin : inPlay c r) (d : Disk) : borderClear (b.setDisk c r d) := by
  obtain ⟨hlen, hbord⟩ := hb
  unfold inPlay at hin
  refine ⟨?_, ?_⟩
  · show (b.disks.set (idx c r) (some d)).length = 100
    rw [List.length_set, hlen]
  · intro i hbi
    show (b.disks.set (idx c r) (some d)).getD i.val none = none
    rw [List.getD_eq_getElem?_getD, List.getElem?_set_ne, ←
      List.getD_eq_getElem?_getD]
    · exact hbord i hbi
    · unfold idx
      omega

theorem borderClear_foldl {ps : List (Int × Int)} (dk : Disk) :
    ∀ {b : Board}, borderClear b → (∀ p ∈ ps, inPlay p.1 p.2) →
      borderClear (ps.foldl (fun bd p => bd.setDisk p.1 p.2 dk) b) := by
  induction ps with
  | nil => intro b hb _; exact hb
  | cons q qs ih =>
    intro b hb hval
    rw [List.foldl_cons]
    exact ih (borderClear_setDisk hb (hval q (List.mem_cons_self q qs)) dk)
      (fun p hp => hval p (List.mem_cons_of_mem q hp))

theorem sideDisks_ne (s : Side) : (sideDisks s).1 ≠ (sideDisks s).2 := by
  cases s <;> simp [sideDisks]

/-- A successful `try_place` from a playable cell preserves the
border-clear invariant. -/
theorem tryPlace_borderClear {b : Board} (hb : borderClear b) {c r : Int}
    (hin : inPlay c r) {s : Side} {b' : Board}
    (h : b.tryPlace c r s = PlaceRes.ok b') : borderClear b' := by
  unfold Board.tryPlace at h
  by_cases hocc : (b.getDisk c r).isSome
  · rw [if_pos hocc] at h
    cases h
  · rw [if_neg hocc] at h
    cases hcf : collectFlips b c r (sideDisks s).1 (sideDisks s).2 ldirs8 with
    | none => simp only [hcf] at h; cases h
    | some L =>
      simp only [hcf] at h
      by_cases hnil : L = []
      · rw [if_pos hnil] at h
        cases h
      · rw [if_neg hnil] at h
        injection h with h
        subst h
        refine borderClear_foldl _ (borderClear_setDisk hb hin _) ?_
        intro p hp
        obtain ⟨⟨h1, h2, h3, h4⟩, hval⟩ :=
          collectFlips_mem (sideDisks_ne s) hcf p hp
        exact hb.occupied_inPlay h1 h2 h3 h4 hval

theorem tryPlace_no_panic {b : Board} (hb : borderClear b) {c r : Int}
    (hin : inPlay c r) (s : Side) : b.tryPlace c r s ≠ PlaceRes.panic := by
  unfold Board.tryPlace
  by_cases hocc : (b.getDisk c r).isSome
  · rw [if_pos hocc]
    intro h; cases h
  · rw [if_neg hocc]
    have h1 := collectFlips_isSome hb hin (sideDisks s).1 (sideDisks s).2
      ldirs8 BoardRS.dirs8_valid
    cases hcf : collectFlips b c r (sideDisks s).1 (sideDisks s).2 ldirs8 with
    | none => rw [hcf] at h1; cases h1
    | some L =>
      simp only [hcf]
      by_cases hnil : L = []
      · rw [if_pos hnil]
        intro h; cases h
      · rw [if_neg hnil]
        intro h; cases h

/-- **C10.**  Every board reachable in lib.rs from `Board::new` by
successful `try_place` calls at playable positions keeps the whole sentinel
border of the 100-cell array empty; consequently no directional scan of
`flip_positions` from a playable cell ever panics (i.e. never constructs an
out-of-range `Position`, hence never indexes outside the array: it always
stops at an empty cell, a same-side disk, or the scan's result), and
`try_place` itself never panics. -/
theorem spec_C10 (b : Board) (hreach : ReachableB b) :
    borderClear b ∧
    (∀ (c r : Int), inPlay c r → ∀ d ∈ ldirs8, ∀ s : Side,
      lscan b d.1 d.2 (sideDisks s).1 (sideDisks s).2 12 c r ≠
        ScanEnd.panic ∧
      b.tryPlace c r s ≠ PlaceRes.panic) := by
  have hbc : borderClear b := by
    induction hreach with
    | base => decide
    | step b c r s b' _ hin hok ih => exact tryPlace_borderClear ih hin hok
  refine ⟨hbc, ?_⟩
  intro c r hin d hd s
  refine ⟨?_, tryPlace_no_panic hbc hin s⟩
  exact lscan_no_panic hbc (BoardRS.dirs8_valid d hd) _ _ 12 c r hin
    (rem_le_twelve hin)

/-- Witness for C10: the initial board, scanning northwest from c4 as
Dark. -/
theorem spec_C10_witness :
    ReachableB Board.new ∧ borderClear Board.new ∧ inPlay 3 4 ∧
    ((-1, -1) ∈ ldirs8) ∧
    (lscan Board.new (-1) (-1) (sideDisks Side.Dark).1
        (sideDisks Side.Dark).2 12 3 4 ≠ ScanEnd.panic ∧
      Board.new.tryPlace 3 4 Side.Dark ≠ PlaceRes.panic) :=
  ⟨ReachableB.base, (spec_C10 Board.new ReachableB.base).1, by decide,
    by decide,
    (spec_C10 Board.new ReachableB.base).2 3 4 (by decide) (-1, -1)
      (by decide) Side.Dark⟩

/-! ### C9: coordinate construction and offsetting -/

/-- **C9, counterexample.**  In lib.rs, constructing a `Position`/`Column`
with column index 9 — outside a..h in either numbering (a..h is 0..7 in
position.rs, 1..8 in lib.rs) — succeeds rather than failing: the numeric
constructors accept the whole sentinel range `0..=9`. -/
theorem spec_C9_counterexample :
    (Position.from? 9 5).isSome = true ∧
    (Column.fromInt? 9).isSome = true ∧
    ¬(1 ≤ (9 : Int) ∧ (9 : Int) ≤ 8) ∧ ¬(0 ≤ (9 : Int) ∧ (9 : Int) < 8) := by
  refine ⟨rfl, rfl, by omega, by omega⟩

/-- **C9, amended.**  The char-based constructors (position.rs
`Column::new`, lib.rs `From<char> for Column`) fail outside `a..=h` and the
position.rs `Row::new` fails outside `1..=8`; offsetting an in-range
position.rs component by a signed delta succeeds exactly when the result
stays on the 8x8 board (`0..8`); but the numeric lib.rs constructors
(`From<i8>`) accept the widened sentinel range `0..=9` — including the
border columns/rows 0 and 9, outside a..h / 1..8 — and fail only beyond
it. -/
theorem spec_C9 :
    (∀ ch : Char, (PositionRS.Column.new? ch).isSome ↔
      ('a' ≤ ch ∧ ch ≤ 'h')) ∧
    (∀ n : Nat, (PositionRS.Row.new? n).isSome ↔ (1 ≤ n ∧ n ≤ 8)) ∧
    (∀ i k : Int, 0 ≤ i → i < 8 →
      ((PositionRS.Column.add i k).isSome ↔ (0 ≤ i + k ∧ i + k < 8))) ∧
    (∀ i k : Int, 0 ≤ i → i < 8 →
      ((PositionRS.Row.add i k).isSome ↔ (0 ≤ i + k ∧ i + k < 8))) ∧
    (∀ ch : Char, (Column.fromChar? ch).isSome ↔ ('a' ≤ ch ∧ ch ≤ 'h')) ∧
    (∀ i : Int, (Column.fromInt? i).isSome ↔ (0 ≤ i ∧ i ≤ 9)) ∧
    (∀ i : Int, (Row.fromInt? i).isSome ↔ (0 ≤ i ∧ i ≤ 9)) ∧
    (∀ c r : Int, (Position.from? c r).isSome ↔
      (0 ≤ c ∧ c ≤ 9 ∧ 0 ≤ r ∧ r ≤ 9)) := by
  refine ⟨?_, ?_, ?_, ?_, ?_, ?_, ?_, ?_⟩
  · intro ch
    unfold PositionRS.Column.new?
    by_cases h : ch < 'a' ∨ 'h' < ch
    · rw [if_pos h]
      simp only [Option.isSome_none, Bool.false_eq_true, false_iff]
      rintro ⟨h1, h2⟩
      rcases h with h | h
      · exact absurd h1 (not_le_of_lt h)
      · exact absurd h2 (not_le_of_lt h)
    · rw [if_neg h]
      push_neg at h
      simp only [Option.isSome_some, true_iff]
      exact ⟨h.1, h.2⟩
  · intro n
    unfold PositionRS.Row.new?
    by_cases h : n < 1 ∨ 8 < n
    · rw [if_pos h]
      simp only [Option.isSome_none, Bool.false_eq_true, false_iff]
      omega
    · rw [if_neg h]
      simp only [Option.isSome_some, true_iff]
      omega
  · intro i k _ _
    unfold PositionRS.Column.add
    by_cases h : i + k < 0 ∨ 8 ≤ i + k
    · rw [if_pos h]
      simp only [Option.isSome_none, Bool.false_eq_true, false_iff]
      omega
    · rw [if_neg h]
      simp only [Option.isSome_some, true_iff]
      omega
  · intro i k _ _
    unfold PositionRS.Row.add
    by_cases h : i + k < 0 ∨ 8 ≤ i + k
    · rw [if_pos h]
      simp only [Option.isSome_none, Bool.false_eq_true, false_iff]
      omega
    · rw [if_neg h]
      simp only [Option.isSome_some, true_iff]
      omega
  · intro ch
    unfold Column.fromChar?
    by_cases h : ch < 'a' ∨ 'h' < ch
    · rw [if_pos h]
      simp only [Option.isSome_none, Bool.false_eq_true, false_iff]
      rintro ⟨h1, h2⟩
      rcases h with h | h
      · exact absurd h1 (not_le_of_lt h)
      · exact absurd h2 (not_le_of_lt h)
    · rw [if_neg h]
      push_neg at h
      simp only [Option.isSome_some, true_iff]
      exact ⟨h.1, h.2⟩
  · intro i
    unfold Column.fromInt?
    by_cases h : i < 0 ∨ 9 < i
    · rw [if_pos h]
      simp only [Option.isSome_none, Bool.false_eq_true, false_iff]
      omega
    · rw [if_neg h]
      simp only [Option.isSome_some, true_iff]
      omega
  · intro i
    unfold Row.fromInt?
    by_cases h : i < 0 ∨ 9 < i
    · rw [if_pos h]
      simp only [Option.isSome_none, Bool.false_eq_true, false_iff]
      omega
    · rw [if_neg h]
      simp only [Option.isSome_some, true_iff]
      omega
  · intro c r
    unfold Position.from? Column.fromInt? Row.fromInt?
    by_cases hc : c < 0 ∨ 9 < c
    · rw [if_pos hc]
      by_cases hr : r < 0 ∨ 9 < r
      · rw [if_pos hr]
        simp only [Option.isSome_none, Bool.false_eq_true, false_iff]
        omega
      · rw [if_neg hr]
        simp only [Option.isSome_none, Bool.false_eq_true, false_iff]
        omega
    · rw [if_neg hc]
      by_cases hr : r < 0 ∨ 9 < r
      · rw [if_pos hr]
        simp only [Option.isSome_none, Bool.false_eq_true, false_iff]
        omega
      · rw [if_neg hr]
        simp only [Option.isSome_some, true_iff]
        omega

/-- Witness for C9's offset clauses at concrete values. -/
theorem spec_C9_witness :
    (0 ≤ (3 : Int) ∧ (3 : Int) < 8) ∧
    ((PositionRS.Column.add 3 2).isSome ↔
      (0 ≤ (3 : Int) + 2 ∧ (3 : Int) + 2 < 8)) ∧
    ((PositionRS.Row.add 7 1).isSome ↔
      (0 ≤ (7 : Int) + 1 ∧ (7 : Int) + 1 < 8)) :=
  ⟨⟨by omega, by omega⟩,
    spec_C9.2.2.1 3 2 (by omega) (by omega),
    spec_C9.2.2.2.1 7 1 (by omega) (by omega)⟩


theorem get?_set_ne {α : Type} (l : List α) {i j : Nat} (a : α) (h : i ≠ j) :
    (l.set i a).get? j = l.get? j := by
  rw [List.get?_eq_getElem?, List.get?_eq_getElem?, List.getElem?_set_ne h]

theorem get?_set_eq {α : Type} (l : List α) {i : Nat} (a : α)
    (h : i < l.length) : (l.set i a).get? i = some a := by
  rw [List.get?_eq_getElem?]
  simp [List.getElem?_set_self, h]

theorem get?_lt {α : Type} {l : List α} {i : Nat} {a : α}
    (h : l.get? i = some a) : i < l.length := by
  by_contra hge
  rw [List.get?_eq_none.mpr (by omega)] at h
  cases h

theorem mkChildren_len_fst (parentIdx : Nat) (ns : Side) :
    ∀ (L : List ((Int × Int) × Board)) (base : Nat),
      (mkChildren base parentIdx ns L).1.length = L.length := by
  intro L
  induction L with
  | nil => intro base; rfl
  | cons pb rest ih =>
    intro base
    rw [mkChildren]
    simp [ih (base + 1)]

theorem mkChildren_keys (parentIdx : Nat) (ns : Side) :
    ∀ (L : List ((Int × Int) × Board)) (base : Nat),
      (mkChildren base parentIdx ns L).1.map Prod.fst =
        L.map (fun pb => some pb.1) := by
  intro L
  induction L with
  | nil => intro base; rfl
  | cons pb rest ih =>
    intro base
    rw [mkChildren]
    simp [ih (base + 1)]

theorem mkChildren_mem_fst (parentIdx : Nat) (ns : Side) :
    ∀ (L : List ((Int × Int) × Board)) (base : Nat),
      ∀ kj ∈ (mkChildren base parentIdx ns L).1, ∃ pb ∈ L, ∃ k : Nat,
        kj = (some pb.1, base + k) ∧
        (mkChildren base parentIdx ns L).2.get? k =
          some ⟨pb.2, ns, some parentIdx, []⟩ := by
  intro L
  induction L with
  | nil => intro base kj h; cases h
  | cons pb rest ih =>
    intro base kj h
    rw [mkChildren] at h
    rcases List.mem_cons.mp h with rfl | hmem
    · exact ⟨pb, List.mem_cons_self pb rest, 0, by simp, by rw [mkChildren]; rfl⟩
    · obtain ⟨qb, hqb, k, hkj, hget⟩ := ih (base + 1) kj hmem
      refine ⟨qb, List.mem_cons_of_mem pb hqb, k + 1, ?_, ?_⟩
      · rw [hkj]
        congr 1
        omega
      · rw [mkChildren]
        exact hget

theorem legalChildren_mem {b : Board} {s : Side} :
    ∀ {order : List (Int × Int)} {L : List ((Int × Int) × Board)},
      legalChildren b s order = some L → ∀ pb ∈ L,
        pb.1 ∈ order ∧ b.tryPlace pb.1.1 pb.1.2 s = PlaceRes.ok pb.2 := by
  intro order
  induction order with
  | nil =>
    intro L h pb hpb
    injection h with h
    subst h
    cases hpb
  | cons p ps ih =>
    intro L h pb hpb
    rw [legalChildren] at h
    cases htp : b.tryPlace p.1 p.2 s with
    | panic => simp only [htp] at h; cases h
    | illegal =>
      simp only [htp] at h
      obtain ⟨h1, h2⟩ := ih h pb hpb
      exact ⟨List.mem_cons_of_mem p h1, h2⟩
    | ok b' =>
      simp only [htp] at h
      cases hlc : legalChildren b s ps with
      | none => rw [hlc] at h; cases h
      | some M =>
        rw [hlc] at h
        injection h with h
        subst h
        rcases List.mem_cons.mp hpb with rfl | hmem
        · exact ⟨List.mem_cons_self p ps, htp⟩
        · obtain ⟨h1, h2⟩ := ih hlc pb hmem
          exact ⟨List.mem_cons_of_mem p h1, h2⟩

theorem legalChildren_nil_iff {b : Board} {s : Side} :
    ∀ {order : List (Int × Int)} {L : List ((Int × Int) × Board)},
      legalChildren b s order = some L →
      (L = [] ↔ ∀ p ∈ order, ∀ b', b.tryPlace p.1 p.2 s ≠ PlaceRes.ok b') := by
  intro order
  induction order with
  | nil =>
    intro L h
    injection h with h
    subst h
    simp
  | cons p ps ih =>
    intro L h
    rw [legalChildren] at h
    cases htp : b.tryPlace p.1 p.2 s with
    | panic => simp only [htp] at h; cases h
    | illegal =>
      simp only [htp] at h
      rw [ih h]
      constructor
      · intro hall q hq b' htq
        rcases List.mem_cons.mp hq with rfl | hmem
        · rw [htp] at htq; cases htq
        · exact hall q hmem b' htq
      · intro hall q hq b' htq
        exact hall q (List.mem_cons_of_mem p hq) b' htq
    | ok b' =>
      simp only [htp] at h
      cases hlc : legalChildren b s ps with
      | none => rw [hlc] at h; cases h
      | some M =>
        rw [hlc] at h
        injection h with h
        subst h
        constructor
        · intro hnil; cases hnil
        · intro hall
          exact absurd htp (hall p (List.mem_cons_self p ps) b')

theorem playOrder_inPlay : ∀ p ∈ playOrder, inPlay p.1 p.2 := by decide

theorem legalChildren_isSome {b : Board} (hb : borderClear b) (s : Side) :
    ∀ (order : List (Int × Int)), (∀ p ∈ order, inPlay p.1 p.2) →
      (legalChildren b s order).isSome := by
  intro order
  induction order with
  | nil => intro _; rfl
  | cons p ps ih =>
    intro hin
    rw [legalChildren]
    cases htp : b.tryPlace p.1 p.2 s with
    | panic =>
      exact absurd htp
        (tryPlace_no_panic hb (hin p (List.mem_cons_self p ps)) s)
    | illegal => exact ih (fun q hq => hin q (List.mem_cons_of_mem p hq))
    | ok b' =>
      have h2 := ih (fun q hq => hin q (List.mem_cons_of_mem p hq))
      cases hlc : legalChildren b s ps with
      | none => rw [hlc] at h2; cases h2
      | some M => simp [hlc]

theorem legalChildren_borderClear {b : Board} (hb : borderClear b) {s : Side}
    {L : List ((Int × Int) × Board)}
    (h : legalChildren b s playOrder = some L) :
    ∀ pb ∈ L, borderClear pb.2 := by
  intro pb hpb
  obtain ⟨h1, h2⟩ := legalChildren_mem h pb hpb
  exact tryPlace_borderClear hb (playOrder_inPlay pb.1 h1) h2

/-! ### The tree invariant -/


theorem Inv.current_node {g : GameM} (h : Inv g) :
    ∃ n, g.nodes.get? g.current = some n := by
  cases hn : g.nodes.get? g.current with
  | none =>
    rw [List.get?_eq_none] at hn
    exact absurd h.2.1 (by omega)
  | some n => exact ⟨n, rfl⟩

/-! ### Arena lookups after an expansion -/

theorem get?_setAppend_self {α : Type} {l : List α} {i : Nat} (a : α)
    (h : i < l.length) (m : List α) : ((l.set i a) ++ m).get? i = some a := by
  rw [List.get?_append (by rw [List.length_set]; exact h), get?_set_eq l a h]

theorem get?_setAppend_old {α : Type} {l : List α} {i j : Nat} (a : α)
    (hij : i ≠ j) (hj : j < l.length) (m : List α) :
    ((l.set i a) ++ m).get? j = l.get? j := by
  rw [List.get?_append (by rw [List.length_set]; exact hj), get?_set_ne l a hij]

theorem get?_setAppend_new {α : Type} {l : List α} {i : Nat} (a : α)
    (m : List α) (k : Nat) :
    ((l.set i a) ++ m).get? (l.length + k) = m.get? k := by
  rw [List.get?_append_right (by rw [List.length_set]; omega)]
  congr 1
  rw [List.length_set]
  omega

theorem mkChildren_nodes_mem (parentIdx : Nat) (ns : Side) :
    ∀ (L : List ((Int × Int) × Board)) (base : Nat),
      ∀ m ∈ (mkChildren base parentIdx ns L).2, ∃ pb ∈ L,
        m = ⟨pb.2, ns, some parentIdx, []⟩ := by
  intro L
  induction L with
  | nil => intro base m h; cases h
  | cons pb rest ih =>
    intro base m h
    rw [mkChildren] at h
    rcases List.mem_cons.mp h with rfl | hmem
    · exact ⟨pb, List.mem_cons_self pb rest, rfl⟩
    · obtain ⟨qb, hqb, hm⟩ := ih (base + 1) m hmem
      exact ⟨qb, List.mem_cons_of_mem pb hqb, hm⟩

theorem expandedAt_mono {ns ns' : List NodeRec} {n : NodeRec}
    (hext : ∀ j nd, ns.get? j = some nd → ∃ nd', ns'.get? j = some nd' ∧
      nd'.board = nd.board ∧ nd'.side = nd.side)
    (h : expandedAt ns n) : expandedAt ns' n := by
  obtain ⟨L, hL, hcase⟩ := h
  refine ⟨L, hL, ?_⟩
  rcases hcase with ⟨hnil, j, nd, hch, hget, hbd, hsd⟩ | ⟨hne, hkeys, hall⟩
  · obtain ⟨nd', hget', hbd', hsd'⟩ := hext j nd hget
    exact Or.inl ⟨hnil, j, nd', hch, hget', by rw [hbd', hbd],
      by rw [hsd', hsd]⟩
  · refine Or.inr ⟨hne, hkeys, ?_⟩
    intro kj hkj
    obtain ⟨pb, hpb, nd, hk1, hget, hbd, hsd⟩ := hall kj hkj
    obtain ⟨nd', hget', hbd', hsd'⟩ := hext kj.2 nd hget
    exact ⟨pb, hpb, nd', hk1, hget', by rw [hbd', hbd], by rw [hsd', hsd]⟩

/-! ### The shapes of `gen_next_moves` -/

theorem gen_cached {g : GameM} {n : NodeRec}
    (hn : g.nodes.get? g.current = some n) (hc : n.children ≠ []) :
    genNextMoves g = some g := by
  unfold genNextMoves
  simp only [hn]
  rw [if_pos (List.length_pos.mpr hc)]

theorem gen_fresh_nil {g : GameM} {n : NodeRec}
    (hn : g.nodes.get? g.current = some n) (hc : n.children = [])
    (hL : legalChildren n.board n.side playOrder = some []) :
    genNextMoves g = some ⟨(g.nodes.set g.current
        { n with children := [(none, g.nodes.length)] }) ++
        [⟨n.board, changeTurn n.side, some g.current, []⟩], g.current⟩ := by
  unfold genNextMoves
  simp only [hn, hL, hc]
  rfl

theorem gen_fresh_cons {g : GameM} {n : NodeRec} {L : List ((Int × Int) × Board)}
    (hn : g.nodes.get? g.current = some n) (hc : n.children = [])
    (hL : legalChildren n.board n.side playOrder = some L) (hLne : L ≠ []) :
    genNextMoves g = some ⟨(g.nodes.set g.current
        { n with children :=
            (mkChildren g.nodes.length g.current (changeTurn n.side) L).1 }) ++
        (mkChildren g.nodes.length g.current (changeTurn n.side) L).2,
      g.current⟩ := by
  unfold genNextMoves
  simp only [hn, hL, hc]
  rw [if_neg (by simp), if_neg hLne]

theorem gen_isSome {g : GameM} (hInv : Inv g) :
    (genNextMoves g).isSome := by
  obtain ⟨n, hn⟩ := hInv.current_node
  by_cases hc : n.children = []
  · have hbc : borderClear n.board := (hInv.2.2 g.current n hn).1
    have hsome := legalChildren_isSome hbc n.side playOrder playOrder_inPlay
    cases hL : legalChildren n.board n.side playOrder with
    | none => rw [hL] at hsome; cases hsome
    | some L =>
      by_cases hLne : L = []
      · subst hLne
        rw [gen_fresh_nil hn hc hL]
        rfl
      · rw [gen_fresh_cons hn hc hL hLne]
        rfl
  · rw [gen_cached hn hc]
    rfl

/-- Extending the arena with fresh children of the current node preserves
the invariant.  `ks` are the new child edges of the current node and `nds`
the appended node records. -/
theorem extend_spec {g : GameM} (hInv : Inv g) {n : NodeRec}
    (hn : g.nodes.get? g.current = some n)
    {ks : List (Option (Int × Int) × Nat)} {nds : List NodeRec}
    (hedges : ∀ kj ∈ ks, ∃ (k : Nat) (nd : NodeRec),
      kj.2 = g.nodes.length + k ∧ nds.get? k = some nd ∧
      nd.parent = some g.current)
    (hnds : ∀ m ∈ nds, borderClear m.board ∧ m.children = ([] :
      List (Option (Int × Int) × Nat)) ∧ m.parent = some g.current)
    (hexp : expandedAt
      ((g.nodes.set g.current { n with children := ks }) ++ nds)
      { n with children := ks }) :
    Inv ⟨(g.nodes.set g.current { n with children := ks }) ++ nds,
      g.current⟩ ∧
    (∀ j nd, g.nodes.get? j = some nd → ∃ nd',
      ((g.nodes.set g.current { n with children := ks }) ++ nds).get? j =
        some nd' ∧
      nd'.board = nd.board ∧ nd'.side = nd.side ∧
      nd'.parent = nd.parent) := by
  have hcur : g.current < g.nodes.length := get?_lt hn
  set A := g.nodes with hA
  set cur := g.current with hcur_def
  set n' : NodeRec := { n with children := ks } with hn'
  set A' := (A.set cur n') ++ nds with hA'
  have hlen : A'.length = A.length + nds.length := by
    rw [hA', List.length_append, List.length_set]
  have hAg : A.length = g.nodes.length := rfl
  have hext : ∀ j nd, A.get? j = some nd → ∃ nd', A'.get? j = some nd' ∧
      nd'.board = nd.board ∧ nd'.side = nd.side ∧
      nd'.parent = nd.parent := by
    intro j nd hj
    by_cases hjc : j = cur
    · subst hjc
      rw [hn] at hj
      injection hj with hj
      subst hj
      exact ⟨n', get?_setAppend_self n' hcur nds, rfl, rfl, rfl⟩
    · exact ⟨nd, by
        rw [hA', get?_setAppend_old n' (fun he => hjc he.symm) (get?_lt hj)]
        exact hj, rfl, rfl, rfl⟩
  refine ⟨⟨?_, ?_, ?_⟩, hext⟩
  · show 0 < A'.length
    omega
  · show cur < A'.length
    omega
  intro i m hm
  by_cases hi : i < A.length
  · by_cases hic : i = cur
    · subst hic
      rw [hA', get?_setAppend_self n' hcur nds] at hm
      injection hm with hm
      subst hm
      obtain ⟨hbc, _, hpar, _⟩ := hInv.2.2 cur n hn
      refine ⟨hbc, ?_, ?_, Or.inr hexp⟩
      · intro kj hkj
        obtain ⟨k, nd, hk2, hget, hparent⟩ := hedges kj hkj
        refine ⟨nd, ?_, hparent⟩
        rw [hk2, hA', get?_setAppend_new n' nds k]
        exact hget
      · intro p hp
        show p < A'.length
        have := hpar p hp
        omega
    · rw [hA', get?_setAppend_old n' (fun he => hic he.symm) hi] at hm
      obtain ⟨hbc, hedge, hpar, hch⟩ := hInv.2.2 i m hm
      refine ⟨hbc, ?_, ?_, ?_⟩
      · intro kj hkj
        obtain ⟨nd, hget, hparent⟩ := hedge kj hkj
        obtain ⟨nd', hget', _, _, hpar'⟩ := hext kj.2 nd hget
        exact ⟨nd', hget', by rw [hpar', hparent]⟩
      · intro p hp
        show p < A'.length
        have := hpar p hp
        omega
      · rcases hch with hnil | hexp'
        · exact Or.inl hnil
        · exact Or.inr (expandedAt_mono
            (fun j nd hj => by
              obtain ⟨nd', h1, h2, h3, _⟩ := hext j nd hj
              exact ⟨nd', h1, h2, h3⟩) hexp')
  · have hk : i = A.length + (i - A.length) := by omega
    rw [hk, hA', get?_setAppend_new n' nds _] at hm
    have hmem : m ∈ nds := List.get?_mem hm
    obtain ⟨hbc, hchn, hparn⟩ := hnds m hmem
    refine ⟨hbc, ?_, ?_, Or.inl hchn⟩
    · intro kj hkj
      rw [hchn] at hkj
      cases hkj
    · intro p hp
      rw [hparn] at hp
      injection hp with hp
      show p < A'.length
      omega

/-- Everything the controller needs to know about a successful
`gen_next_moves`: the invariant is preserved, the current index and every
old node's board, side and parent survive, and the current node ends up
expanded. -/
theorem gen_spec {g g' : GameM} (hInv : Inv g)
    (h : genNextMoves g = some g') :
    Inv g' ∧ g'.current = g.current ∧ g.nodes.length ≤ g'.nodes.length ∧
    (∀ j nd, g.nodes.get? j = some nd → ∃ nd', g'.nodes.get? j = some nd' ∧
      nd'.board = nd.board ∧ nd'.side = nd.side ∧
      nd'.parent = nd.parent) ∧
    (∃ n n', g.nodes.get? g.current = some n ∧
      g'.nodes.get? g'.current = some n' ∧ n'.board = n.board ∧
      n'.side = n.side ∧ expandedAt g'.nodes n') := by
  obtain ⟨n, hn⟩ := hInv.current_node
  by_cases hc : n.children = []
  · have hbc : borderClear n.board := (hInv.2.2 g.current n hn).1
    have hsome := legalChildren_isSome hbc n.side playOrder playOrder_inPlay
    cases hL : legalChildren n.board n.side playOrder with
    | none => rw [hL] at hsome; cases hsome
    | some L =>
      by_cases hLne : L = []
      · subst hLne
        rw [gen_fresh_nil hn hc hL] at h
        injection h with h
        subst h
        have hpass : ∀ m ∈ [(⟨n.board, changeTurn n.side, some g.current,
            []⟩ : NodeRec)], borderClear m.board ∧ m.children = ([] :
            List (Option (Int × Int) × Nat)) ∧
            m.parent = some g.current := by
          intro m hm
          rcases List.mem_singleton.mp hm with rfl
          exact ⟨hbc, rfl, rfl⟩
        have hedges : ∀ kj ∈ [((none : Option (Int × Int)),
            g.nodes.length)], ∃ (k : Nat) (nd : NodeRec),
            kj.2 = g.nodes.length + k ∧
            [(⟨n.board, changeTurn n.side, some g.current, []⟩ :
              NodeRec)].get? k = some nd ∧ nd.parent = some g.current := by
          intro kj hkj
          rcases List.mem_singleton.mp hkj with rfl
          exact ⟨0, _, by omega, rfl, rfl⟩
        have hexp : expandedAt ((g.nodes.set g.current
            { n with children := [(none, g.nodes.length)] }) ++
            [⟨n.board, changeTurn n.side, some g.current, []⟩])
            { n with children := [(none, g.nodes.length)] } := by
          refine ⟨[], hL, Or.inl ⟨rfl, g.nodes.length,
            ⟨n.board, changeTurn n.side, some g.current, []⟩, rfl, ?_, rfl,
            rfl⟩⟩
          have h0 := @get?_setAppend_new _ g.nodes g.current
            ({ n with children := [(none, g.nodes.length)] })
            [(⟨n.board, changeTurn n.side, some g.current, []⟩ : NodeRec)]
            0
          rw [Nat.add_zero] at h0
          exact h0
        obtain ⟨hInv', hext⟩ := extend_spec hInv hn hedges hpass hexp
        refine ⟨hInv', rfl, by
          simp [List.length_append, List.length_set], ?_, ?_⟩
        · exact hext
        · refine ⟨n, _, hn, get?_setAppend_self _ (get?_lt hn) _, rfl, rfl,
            hexp⟩
      · rw [gen_fresh_cons hn hc hL hLne] at h
        injection h with h
        subst h
        have hedges : ∀ kj ∈ (mkChildren g.nodes.length g.current
            (changeTurn n.side) L).1, ∃ (k : Nat) (nd : NodeRec),
            kj.2 = g.nodes.length + k ∧
            (mkChildren g.nodes.length g.current (changeTurn n.side)
              L).2.get? k = some nd ∧ nd.parent = some g.current := by
          intro kj hkj
          obtain ⟨pb, hpb, k, hkj2, hget⟩ :=
            mkChildren_mem_fst g.current (changeTurn n.side) L
              g.nodes.length kj hkj
          refine ⟨k, _, by rw [hkj2], hget, rfl⟩
        have hnds : ∀ m ∈ (mkChildren g.nodes.length g.current
            (changeTurn n.side) L).2, borderClear m.board ∧
            m.children = ([] : List (Option (Int × Int) × Nat)) ∧
            m.parent = some g.current := by
          intro m hm
          obtain ⟨pb, hpb, hmeq⟩ := mkChildren_nodes_mem g.current
            (changeTurn n.side) L g.nodes.length m hm
          subst hmeq
          exact ⟨legalChildren_borderClear hbc hL pb hpb, rfl, rfl⟩
        have hexp : expandedAt ((g.nodes.set g.current
            { n with children := (mkChildren g.nodes.length g.current
                (changeTurn n.side) L).1 }) ++
            (mkChildren g.nodes.length g.current (changeTurn n.side) L).2)
            { n with children := (mkChildren g.nodes.length g.current
                (changeTurn n.side) L).1 } := by
          refine ⟨L, hL, Or.inr ⟨hLne, ?_, ?_⟩⟩
          · exact mkChildren_keys g.current (changeTurn n.side) L
              g.nodes.length
          · intro kj hkj
            obtain ⟨pb, hpb, k, hkj2, hget⟩ :=
              mkChildren_mem_fst g.current (changeTurn n.side) L
                g.nodes.length kj hkj
            refine ⟨pb, hpb, ⟨pb.2, changeTurn n.side, some g.current, []⟩,
              by rw [hkj2], ?_, rfl, rfl⟩
            rw [hkj2]
            show ((g.nodes.set g.current _) ++ _).get?
              (g.nodes.length + k) = _
            rw [get?_setAppend_new _ _ k]
            exact hget
        obtain ⟨hInv', hext⟩ := extend_spec hInv hn hedges hnds hexp
        refine ⟨hInv', rfl, by
          simp [List.length_append, List.length_set], hext, ?_⟩
        exact ⟨n, _, hn, get?_setAppend_self _ (get?_lt hn) _, rfl, rfl,
          hexp⟩
  · rw [gen_cached hn hc] at h
    injection h with h
    subst h
    obtain ⟨_, _, _, hch⟩ := hInv.2.2 g.current n hn
    rcases hch with hnil | hexp
    · exact absurd hnil hc
    · exact ⟨hInv, rfl, le_rfl,
        fun j nd hj => ⟨nd, hj, rfl, rfl, rfl⟩,
        ⟨n, n, hn, hn, rfl, rfl, hexp⟩⟩

theorem findChild_some {ch : List (Option (Int × Int) × Nat)}
    {key : Option (Int × Int)} {j : Nat} (h : findChild ch key = some j) :
    (key, j) ∈ ch := by
  unfold findChild at h
  cases hfind : ch.find? (fun kc => decide (kc.1 = key)) with
  | none => rw [hfind] at h; cases h
  | some kc =>
    rw [hfind] at h
    injection h with h
    have hkey : kc.1 = key := by
      have := List.find?_some hfind
      simpa using this
    have hmem : kc ∈ ch := List.mem_of_find?_eq_some hfind
    have : (key, j) = kc := by
      rw [← hkey, ← h]
    rw [this]
    exact hmem

theorem findChild_eq_none {ch : List (Option (Int × Int) × Nat)}
    {key : Option (Int × Int)} (h : ∀ kj ∈ ch, kj.1 ≠ key) :
    findChild ch key = none := by
  unfold findChild
  rw [List.find?_eq_none.mpr (fun kj hkj => by
    simp only [decide_eq_true_eq]
    exact h kj hkj)]
  rfl

theorem place_Inv {g : GameM} (hInv : Inv g) (p : Int × Int) :
    Inv (placeM g p).1 ∧ (placeM g p).1.nodes = g.nodes := by
  unfold placeM
  cases hn : g.nodes.get? g.current with
  | none => simp only [hn]; exact ⟨hInv, trivial⟩
  | some n =>
    simp only [hn]
    cases hf : findChild n.children (some p) with
    | none => simp only [hf]; exact ⟨hInv, trivial⟩
    | some j =>
      simp only [hf]
      have hmem := findChild_some hf
      obtain ⟨nd, hget, _⟩ := (hInv.2.2 g.current n hn).2.1 (some p, j) hmem
      exact ⟨⟨hInv.1, get?_lt hget, hInv.2.2⟩, trivial⟩

theorem passBack_Inv {g : GameM} (hInv : Inv g) :
    Inv (passBackM g).1 ∧ (passBackM g).1.nodes = g.nodes := by
  unfold passBackM
  cases hn : g.nodes.get? g.current with
  | none => simp only [hn]; exact ⟨hInv, trivial⟩
  | some n =>
    simp only [hn]
    cases hf : findChild n.children none with
    | none => simp only [hf]; exact ⟨hInv, trivial⟩
    | some j =>
      simp only [hf]
      have hmem := findChild_some hf
      obtain ⟨nd, hget, _⟩ := (hInv.2.2 g.current n hn).2.1 (none, j) hmem
      exact ⟨⟨hInv.1, get?_lt hget, hInv.2.2⟩, trivial⟩

theorem undo_Inv {g : GameM} (hInv : Inv g) :
    Inv (undoM g) ∧ (undoM g).nodes = g.nodes := by
  unfold undoM
  cases hn : g.nodes.get? g.current with
  | none => simp only [hn]; exact ⟨hInv, trivial⟩
  | some n =>
    simp only [hn]
    cases hp : n.parent with
    | none => simp only [hp]; exact ⟨hInv, trivial⟩
    | some i =>
      simp only [hp]
      have hi := (hInv.2.2 g.current n hn).2.2.1 i hp
      exact ⟨⟨hInv.1, hi, hInv.2.2⟩, trivial⟩

theorem newGame_Inv {g : GameM} (hInv : Inv g) : Inv (newGameM g) :=
  ⟨hInv.1, hInv.1, hInv.2.2⟩

theorem prepare_Inv {g : GameM} (hInv : Inv g) {st : GameStatus}
    {g' : GameM} (h : prepareM g = some (st, g')) : Inv g' := by
  unfold prepareM at h
  cases hg1 : genNextMoves g with
  | none => rw [hg1] at h; cases h
  | some g1 =>
    simp only [hg1] at h
    have hInv1 := (gen_spec hInv hg1).1
    cases hn : g1.nodes.get? g1.current with
    | none => simp only [hn] at h; cases h
    | some n =>
      simp only [hn] at h
      by_cases h64 : countL n.board Disk.Black + countL n.board Disk.White =
        64
      · rw [if_pos h64] at h
        injection h with h
        injection h with h1 h2
        subst h2
        exact hInv1
      · rw [if_neg h64] at h
        cases hpb : passBackM g1 with
        | mk g2 moved =>
          have hInv2 : Inv g2 := by
            have := (passBack_Inv hInv1).1
            rw [hpb] at this
            exact this
          cases moved with
          | false =>
            simp only [hpb] at h
            injection h with h
            injection h with h1 h2
            subst h2
            exact hInv2
          | true =>
            simp only [hpb] at h
            cases hg3 : genNextMoves g2 with
            | none => simp only [hg3] at h; cases h
            | some g3 =>
              simp only [hg3] at h
              have hInv3 := (gen_spec hInv2 hg3).1
              cases hpb2 : passBackM g3 with
              | mk g4 moved2 =>
                have hInv4 : Inv g4 := by
                  have := (passBack_Inv hInv3).1
                  rw [hpb2] at this
                  exact this
                cases moved2 with
                | true =>
                  simp only [hpb2] at h
                  injection h with h
                  injection h with h1 h2
                  subst h2
                  exact hInv4
                | false =>
                  simp only [hpb2] at h
                  cases hn4 : g4.nodes.get? g4.current with
                  | none => simp only [hn4] at h; cases h
                  | some n2 =>
                    simp only [hn4] at h
                    injection h with h
                    injection h with h1 h2
                    subst h2
                    exact hInv4


theorem Inv_new : Inv GameM.new := by
  refine ⟨by decide, by decide, ?_⟩
  intro i n hn
  match i, hn with
  | 0, hn =>
    injection hn with hn
    subst hn
    refine ⟨by decide, ?_, ?_, Or.inl rfl⟩
    · intro kj hkj
      cases hkj
    · intro p hp
      cases hp

theorem ReachableG_Inv {g : GameM} (h : ReachableG g) : Inv g := by
  induction h with
  | base => exact Inv_new
  | newGame _ ih => exact newGame_Inv ih
  | prep _ hp ih => exact prepare_Inv ih hp
  | place p _ ih => exact (place_Inv ih p).1
  | undo _ ih => exact (undo_Inv ih).1

theorem changeTurn_ne (s : Side) : changeTurn s ≠ s := by
  cases s <;> simp [changeTurn]


/-- On an expanded node, `pass_back` succeeds exactly when the expansion
is the single pass child, and then moves into it. -/
theorem expanded_passBack {g : GameM} {n : NodeRec}
    (hn : g.nodes.get? g.current = some n) (hexp : expandedAt g.nodes n) :
    ∃ L, legalChildren n.board n.side playOrder = some L ∧
      ((L = [] ∧ ∃ j nd, passBackM g = ({ g with current := j }, true) ∧
          g.nodes.get? j = some nd ∧ nd.board = n.board ∧
          nd.side = changeTurn n.side) ∨
       (L ≠ [] ∧ passBackM g = (g, false))) := by
  obtain ⟨L, hL, hcase⟩ := hexp
  refine ⟨L, hL, ?_⟩
  rcases hcase with ⟨hnil, j, nd, hch, hget, hbd, hsd⟩ | ⟨hne, hkeys, hall⟩
  · refine Or.inl ⟨hnil, j, nd, ?_, hget, hbd, hsd⟩
    unfold passBackM
    simp only [hn]
    have hfind : findChild n.children none = some j := by
      unfold findChild
      rw [hch]
      rw [List.find?_cons_of_pos _ (by simp)]
      rfl
    simp only [hfind]
  · refine Or.inr ⟨hne, ?_⟩
    unfold passBackM
    simp only [hn]
    have hfind : findChild n.children none = none := by
      refine findChild_eq_none ?_
      intro kj hkj
      obtain ⟨pb, _, nd, hk1, _, _, _⟩ := hall kj hkj
      rw [hk1]
      intro h
      cases h
    simp only [hfind]

/-- **C5.**  Characterization of `Game::prepare` on reachable games: it
returns `GameOver` exactly when the 64 playable cells are full or both the
side to move and its opponent have no legal move (two consecutive forced
passes); `PassBack` (with the opponent now to move) exactly when only the
side to move is forced to pass; `Continue` otherwise; and the reported
counts are always the Black and White disk counts of the current board. -/
theorem spec_C5 (g : GameM) (hreach : ReachableG g) (n : NodeRec)
    (hn : g.nodes.get? g.current = some n) (st : GameStatus) (g' : GameM)
    (hp : prepareM g = some (st, g')) :
    (st = GameStatus.GameOver (countL n.board Disk.Black)
        (countL n.board Disk.White) ∨
     st = GameStatus.PassBack (countL n.board Disk.Black)
        (countL n.board Disk.White) (changeTurn n.side) ∨
     st = GameStatus.Continue (countL n.board Disk.Black)
        (countL n.board Disk.White) n.side) ∧
    (st = GameStatus.GameOver (countL n.board Disk.Black)
        (countL n.board Disk.White) ↔
      (countL n.board Disk.Black + countL n.board Disk.White = 64 ∨
        (noMove n.board n.side ∧ noMove n.board (changeTurn n.side)))) ∧
    (st = GameStatus.PassBack (countL n.board Disk.Black)
        (countL n.board Disk.White) (changeTurn n.side) ↔
      (countL n.board Disk.Black + countL n.board Disk.White ≠ 64 ∧
        noMove n.board n.side ∧ ¬noMove n.board (changeTurn n.side))) ∧
    (st = GameStatus.Continue (countL n.board Disk.Black)
        (countL n.board Disk.White) n.side ↔
      (countL n.board Disk.Black + countL n.board Disk.White ≠ 64 ∧
        ¬noMove n.board n.side)) := by
  have hInv : Inv g := ReachableG_Inv hreach
  unfold prepareM at hp
  cases hg1 : genNextMoves g with
  | none => rw [hg1] at hp; cases hp
  | some g1 =>
    simp only [hg1] at hp
    obtain ⟨hInv1, hcur1, _, _, n0, n1, hn0, hn1, hbd1, hsd1, hexp1⟩ :=
      gen_spec hInv hg1
    rw [hn] at hn0
    injection hn0 with hn0
    subst hn0
    simp only [hn1, hbd1] at hp
    by_cases h64 : countL n.board Disk.Black + countL n.board Disk.White = 64
    · rw [if_pos h64] at hp
      injection hp with hp
      injection hp with hp1 hp2
      subst hp1
      refine ⟨Or.inl rfl, ⟨fun _ => Or.inl h64, fun _ => rfl⟩, ?_, ?_⟩
      · constructor
        · intro hcon
          simp at hcon
        · rintro ⟨h1, _⟩
          exact absurd h64 h1
      · constructor
        · intro hcon
          simp at hcon
        · rintro ⟨h1, _⟩
          exact absurd h64 h1
    · rw [if_neg h64] at hp
      obtain ⟨L, hL, hcases⟩ := expanded_passBack hn1 hexp1
      rw [hbd1, hsd1] at hL
      rcases hcases with ⟨hLnil, j, nd, hpb, hget, hbd2, hsd2⟩ |
        ⟨hLne, hpb⟩
      · -- the side to move is forced to pass
        rw [hbd1] at hbd2
        rw [hsd1] at hsd2
        have hm : noMove n.board n.side :=
          (legalChildren_nil_iff hL).mp hLnil
        simp only [hpb] at hp
        have hInv2 : Inv { g1 with current := j } := by
          have := (passBack_Inv hInv1).1
          rw [hpb] at this
          exact this
        cases hg3 : genNextMoves { g1 with current := j } with
        | none => rw [hg3] at hp; cases hp
        | some g3 =>
          simp only [hg3] at hp
          obtain ⟨hInv3, hcur3, _, _, m0, n3, hm0, hn3, hbd3, hsd3,
            hexp3⟩ := gen_spec hInv2 hg3
          have hm0' : ({ g1 with current := j } : GameM).nodes.get? j =
              some nd := hget
          rw [show ({ g1 with current := j } : GameM).current = j from rfl]
            at hm0
          rw [hm0'] at hm0
          injection hm0 with hm0
          subst hm0
          rw [hbd2] at hbd3
          rw [hsd2] at hsd3
          obtain ⟨L2, hL2, hcases2⟩ := expanded_passBack hn3 hexp3
          rw [hbd3, hsd3] at hL2
          rcases hcases2 with ⟨hL2nil, j2, nd2, hpb2, _, _, _⟩ |
            ⟨hL2ne, hpb2⟩
          · -- both sides are forced to pass: game over
            have hm2 : noMove n.board (changeTurn n.side) :=
              (legalChildren_nil_iff hL2).mp hL2nil
            simp only [hpb2] at hp
            injection hp with hp
            injection hp with hp1 hp2
            subst hp1
            refine ⟨Or.inl rfl, ⟨fun _ => Or.inr ⟨hm, hm2⟩, fun _ => rfl⟩,
              ?_, ?_⟩
            · constructor
              · intro hcon
                simp at hcon
              · rintro ⟨_, _, hno⟩
                exact absurd hm2 hno
            · constructor
              · intro hcon
                simp at hcon
              · rintro ⟨_, hns⟩
                exact absurd hm hns
          · -- exactly one forced pass
            have hnm2 : ¬noMove n.board (changeTurn n.side) := by
              intro hno
              exact hL2ne ((legalChildren_nil_iff hL2).mpr hno)
            simp only [hpb2, hn3] at hp
            injection hp with hp
            injection hp with hp1 hp2
            rw [hsd3] at hp1
            subst hp1
            refine ⟨Or.inr (Or.inl rfl), ?_,
              ⟨fun _ => ⟨h64, hm, hnm2⟩, fun _ => rfl⟩, ?_⟩
            · constructor
              · intro hcon
                simp at hcon
              · rintro (h1 | ⟨_, hno⟩)
                · exact absurd h1 h64
                · exact absurd hno hnm2
            · constructor
              · intro hcon
                simp at hcon
              · rintro ⟨_, hns⟩
                exact absurd hm hns
      · -- the side to move has a legal move
        have hnm : ¬noMove n.board n.side := by
          intro hno
          exact hLne ((legalChildren_nil_iff hL).mpr hno)
        simp only [hpb] at hp
        injection hp with hp
        injection hp with hp1 hp2
        rw [hsd1] at hp1
        subst hp1
        refine ⟨Or.inr (Or.inr rfl), ?_, ?_,
          ⟨fun _ => ⟨h64, hnm⟩, fun _ => rfl⟩⟩
        · constructor
          · intro hcon
            simp at hcon
          · rintro (h1 | ⟨hno, _⟩)
            · exact absurd h1 h64
            · exact absurd hno hnm
        · constructor
          · intro hcon
            simp at hcon
          · rintro ⟨_, hns, _⟩
            exact absurd hns hnm


/-- Witness for C5 at the fresh game: the first `prepare`. -/
theorem spec_C5_witness :
    ReachableG GameM.new ∧
    GameM.new.nodes.get? GameM.new.current = some rootNode ∧
    prepareM GameM.new = some (newPrep.1, newPrep.2) ∧
    ((newPrep.1 = GameStatus.GameOver (countL rootNode.board Disk.Black)
        (countL rootNode.board Disk.White) ∨
     newPrep.1 = GameStatus.PassBack (countL rootNode.board Disk.Black)
        (countL rootNode.board Disk.White) (changeTurn rootNode.side) ∨
     newPrep.1 = GameStatus.Continue (countL rootNode.board Disk.Black)
        (countL rootNode.board Disk.White) rootNode.side) ∧
    (newPrep.1 = GameStatus.GameOver (countL rootNode.board Disk.Black)
        (countL rootNode.board Disk.White) ↔
      (countL rootNode.board Disk.Black +
          countL rootNode.board Disk.White = 64 ∨
        (noMove rootNode.board rootNode.side ∧
          noMove rootNode.board (changeTurn rootNode.side)))) ∧
    (newPrep.1 = GameStatus.PassBack (countL rootNode.board Disk.Black)
        (countL rootNode.board Disk.White) (changeTurn rootNode.side) ↔
      (countL rootNode.board Disk.Black +
          countL rootNode.board Disk.White ≠ 64 ∧
        noMove rootNode.board rootNode.side ∧
        ¬noMove rootNode.board (changeTurn rootNode.side))) ∧
    (newPrep.1 = GameStatus.Continue (countL rootNode.board Disk.Black)
        (countL rootNode.board Disk.White) rootNode.side ↔
      (countL rootNode.board Disk.Black +
          countL rootNode.board Disk.White ≠ 64 ∧
        ¬noMove rootNode.board rootNode.side))) :=
  ⟨ReachableG.base, rfl, rfl,
    spec_C5 GameM.new ReachableG.base rootNode rfl newPrep.1 newPrep.2 rfl⟩

theorem legalChildren_complete {b : Board} {s : Side} :
    ∀ {order : List (Int × Int)} {L : List ((Int × Int) × Board)},
      legalChildren b s order = some L → ∀ p b', p ∈ order →
        b.tryPlace p.1 p.2 s = PlaceRes.ok b' → (p, b') ∈ L := by
  intro order
  induction order with
  | nil =>
    intro L h p b' hp _
    cases hp
  | cons q qs ih =>
    intro L h p b' hp htp
    rw [legalChildren] at h
    rcases List.mem_cons.mp hp with rfl | hmem
    · rw [htp] at h
      cases hlc : legalChildren b s qs with
      | none => rw [hlc] at h; cases h
      | some M =>
        rw [hlc] at h
        injection h with h
        subst h
        exact List.mem_cons_self _ _
    · cases htq : b.tryPlace q.1 q.2 s with
      | panic => rw [htq] at h; cases h
      | illegal =>
        rw [htq] at h
        exact ih h p b' hmem htp
      | ok b'' =>
        rw [htq] at h
        cases hlc : legalChildren b s qs with
        | none => rw [hlc] at h; cases h
        | some M =>
          rw [hlc] at h
          injection h with h
          subst h
          exact List.mem_cons_of_mem _ (ih hlc p b' hmem htp)

/-- **C6.**  `gen_next_moves` is a no-op when the current node already has
children.  Otherwise it inserts exactly one child per coordinate where
`try_place` succeeds — the legal-move list `L`, characterized against
`try_place` below — each child holding the move's board, the opponent as
side to move, and a parent back-reference to the current node; and when no
coordinate is legal it inserts exactly one pass-sentinel child carrying
the parent's unchanged board and the opponent side.  All other nodes are
untouched and the current node keeps its board, side and parent. -/
theorem spec_C6 (g : GameM) (n : NodeRec)
    (hn : g.nodes.get? g.current = some n) :
    (n.children ≠ [] → genNextMoves g = some g) ∧
    (n.children = [] →
      ∀ L, legalChildren n.board n.side playOrder = some L →
      (∀ pb : (Int × Int) × Board, pb ∈ L ↔ (pb.1 ∈ playOrder ∧
        n.board.tryPlace pb.1.1 pb.1.2 n.side = PlaceRes.ok pb.2)) ∧
      ∃ g', genNextMoves g = some g' ∧ g'.current = g.current ∧
        (∀ i, i ≠ g.current → i < g.nodes.length →
          g'.nodes.get? i = g.nodes.get? i) ∧
        ∃ n', g'.nodes.get? g.current = some n' ∧
          n'.board = n.board ∧ n'.side = n.side ∧ n'.parent = n.parent ∧
          ((L = [] → ∃ j nd, n'.children = [(none, j)] ∧
              g'.nodes.get? j = some nd ∧ nd.board = n.board ∧
              nd.side = changeTurn n.side ∧ nd.parent = some g.current ∧
              nd.children = []) ∧
           (L ≠ [] →
              n'.children.map Prod.fst = L.map (fun pb => some pb.1) ∧
              ∀ kj ∈ n'.children, ∃ pb ∈ L, ∃ nd, kj.1 = some pb.1 ∧
                g'.nodes.get? kj.2 = some nd ∧ nd.board = pb.2 ∧
                nd.side = changeTurn n.side ∧ nd.parent = some g.current ∧
                nd.children = []))) := by
  have hcur : g.current < g.nodes.length := get?_lt hn
  refine ⟨fun hc => gen_cached hn hc, ?_⟩
  intro hc L hL
  refine ⟨?_, ?_⟩
  · intro pb
    constructor
    · intro hpb
      exact legalChildren_mem hL pb hpb
    · rintro ⟨h1, h2⟩
      exact legalChildren_complete hL pb.1 pb.2 h1 h2
  · by_cases hLnil : L = []
    · subst hLnil
      refine ⟨_, gen_fresh_nil hn hc hL, rfl, ?_, ?_⟩
      · intro i hic hil
        exact get?_setAppend_old _ (fun he => hic he.symm) hil _
      · refine ⟨{ n with children := [(none, g.nodes.length)] },
          get?_setAppend_self _ hcur _, rfl, rfl, rfl, ?_, ?_⟩
        · intro _
          refine ⟨g.nodes.length,
            ⟨n.board, changeTurn n.side, some g.current, []⟩, rfl, ?_,
            rfl, rfl, rfl, rfl⟩
          have h0 := @get?_setAppend_new _ g.nodes g.current
            ({ n with children := [(none, g.nodes.length)] })
            [(⟨n.board, changeTurn n.side, some g.current, []⟩ : NodeRec)]
            0
          rw [Nat.add_zero] at h0
          exact h0
        · intro hne
          exact absurd rfl hne
    · refine ⟨_, gen_fresh_cons hn hc hL hLnil, rfl, ?_, ?_⟩
      · intro i hic hil
        exact get?_setAppend_old _ (fun he => hic he.symm) hil _
      · refine ⟨{ n with children := (mkChildren g.nodes.length g.current
            (changeTurn n.side) L).1 },
          get?_setAppend_self _ hcur _, rfl, rfl, rfl, ?_, ?_⟩
        · intro hnil
          exact absurd hnil hLnil
        · intro _
          refine ⟨mkChildren_keys g.current (changeTurn n.side) L
            g.nodes.length, ?_⟩
          intro kj hkj
          obtain ⟨pb, hpb, k, hkj2, hget⟩ :=
            mkChildren_mem_fst g.current (changeTurn n.side) L
              g.nodes.length kj hkj
          refine ⟨pb, hpb, ⟨pb.2, changeTurn n.side, some g.current, []⟩,
            by rw [hkj2], ?_, rfl, rfl, rfl, rfl⟩
          rw [hkj2]
          show ((g.nodes.set g.current _) ++ _).get?
            (g.nodes.length + k) = _
          rw [get?_setAppend_new _ _ k]
          exact hget

/-- Witness for C6 at the fresh game's root node. -/
theorem spec_C6_witness :
    GameM.new.nodes.get? GameM.new.current = some rootNode ∧
    ((rootNode.children ≠ [] → genNextMoves GameM.new = some GameM.new) ∧
    (rootNode.children = [] →
      ∀ L, legalChildren rootNode.board rootNode.side playOrder = some L →
      (∀ pb : (Int × Int) × Board, pb ∈ L ↔ (pb.1 ∈ playOrder ∧
        rootNode.board.tryPlace pb.1.1 pb.1.2 rootNode.side =
          PlaceRes.ok pb.2)) ∧
      ∃ g', genNextMoves GameM.new = some g' ∧
        g'.current = GameM.new.current ∧
        (∀ i, i ≠ GameM.new.current → i < GameM.new.nodes.length →
          g'.nodes.get? i = GameM.new.nodes.get? i) ∧
        ∃ n', g'.nodes.get? GameM.new.current = some n' ∧
          n'.board = rootNode.board ∧ n'.side = rootNode.side ∧
          n'.parent = rootNode.parent ∧
          ((L = [] → ∃ j nd, n'.children = [(none, j)] ∧
              g'.nodes.get? j = some nd ∧ nd.board = rootNode.board ∧
              nd.side = changeTurn rootNode.side ∧
              nd.parent = some GameM.new.current ∧
              nd.children = []) ∧
           (L ≠ [] →
              n'.children.map Prod.fst = L.map (fun pb => some pb.1) ∧
              ∀ kj ∈ n'.children, ∃ pb ∈ L, ∃ nd, kj.1 = some pb.1 ∧
                g'.nodes.get? kj.2 = some nd ∧ nd.board = pb.2 ∧
                nd.side = changeTurn rootNode.side ∧
                nd.parent = some GameM.new.current ∧
                nd.children = [])))) :=
  ⟨rfl, spec_C6 GameM.new rootNode rfl⟩


/-- **C7, counterexample.**  After `prepare` resolves a double forced pass
on `g7base`, the current node's parent (node 1) has the pass sentinel as
its only child; `undo` lands exactly on that parent — it does not climb
the additional level to node 0 that the claim asserts, leaving the player
on a node whose only child is a forced pass. -/
theorem spec_C7_counterexample :
    (prepareM g7base).map Prod.fst = some (GameStatus.GameOver 1 0) ∧
    ((g7after.nodes.get? g7after.current).bind NodeRec.parent) = some 1 ∧
    (undoM g7after).current = 1 ∧
    ((g7after.nodes.get? 1).map (fun n => n.children.map Prod.fst)) =
      some [none] ∧
    (1 : Nat) ≠ 0 := by
  refine ⟨rfl, rfl, rfl, rfl, by omega⟩

/-- **C7, amended.**  `Game::undo` moves the current node to its parent
and stops there — exactly one level, with the tree untouched, even when
that parent's only child is the pass sentinel (there is no additional
climb); at the root, where there is no parent, undo is a no-op. -/
theorem spec_C7 (g : GameM) (n : NodeRec)
    (hn : g.nodes.get? g.current = some n) :
    (∀ i, n.parent = some i → (undoM g).current = i ∧
      (undoM g).nodes = g.nodes) ∧
    (n.parent = none → undoM g = g) := by
  unfold undoM
  constructor
  · intro i hp
    simp only [hn, hp]
    refine ⟨?_, ?_⟩ <;> trivial
  · intro hp
    simp only [hn, hp]

/-- Witness for C7 at the double-pass game `g7after`, whose current node's
parent is the pass-only node 1. -/
theorem spec_C7_witness :
    g7after.nodes.get? g7after.current = some g7node ∧
    ((∀ i, g7node.parent = some i → (undoM g7after).current = i ∧
      (undoM g7after).nodes = g7after.nodes) ∧
    (g7node.parent = none → undoM g7after = g7after)) :=
  ⟨rfl, spec_C7 g7after g7node rfl⟩

/-- **C8.**  On every reachable game state: when `place` succeeds, `undo`
returns to exactly the prior current node — same index, same arena — so
the prior board and side to move are restored; and when the current node
has no parent (the root), `undo` is a no-op. -/
theorem spec_C8 (g : GameM) (hreach : ReachableG g) (p : Int × Int) :
    ((placeM g p).2 = true →
      ∃ n, g.nodes.get? g.current = some n ∧
        (undoM (placeM g p).1).current = g.current ∧
        (undoM (placeM g p).1).nodes = g.nodes ∧
        (undoM (placeM g p).1).nodes.get?
          (undoM (placeM g p).1).current = some n) ∧
    (∀ n, g.nodes.get? g.current = some n → n.parent = none →
      undoM g = g) := by
  have hInv : Inv g := ReachableG_Inv hreach
  constructor
  · intro hsucc
    unfold placeM at hsucc ⊢
    cases hn : g.nodes.get? g.current with
    | none =>
      rw [hn] at hsucc
      cases hsucc
    | some n =>
      simp only [hn] at hsucc ⊢
      cases hf : findChild n.children (some p) with
      | none =>
        rw [hf] at hsucc
        cases hsucc
      | some j =>
        simp only [hf] at hsucc ⊢
        have hmem := findChild_some hf
        obtain ⟨nd, hget, hpar⟩ :=
          (hInv.2.2 g.current n hn).2.1 (some p, j) hmem
        refine ⟨n, rfl, ?_⟩
        unfold undoM
        simp only []
        rw [show ({ g with current := j } : GameM).nodes.get? j =
          g.nodes.get? j from rfl, hget]
        simp only [hpar]
        refine ⟨?_, ?_, ?_⟩ <;> trivial
  · intro n hn hp
    unfold undoM
    simp only [hn, hp]

/-- Witness for C8: the fresh game after its first `prepare`, placing
Black at f5. -/
theorem spec_C8_witness :
    ReachableG newPrep.2 ∧
    (((placeM newPrep.2 (6, 5)).2 = true →
      ∃ n, newPrep.2.nodes.get? newPrep.2.current = some n ∧
        (undoM (placeM newPrep.2 (6, 5)).1).current = newPrep.2.current ∧
        (undoM (placeM newPrep.2 (6, 5)).1).nodes = newPrep.2.nodes ∧
        (undoM (placeM newPrep.2 (6, 5)).1).nodes.get?
          (undoM (placeM newPrep.2 (6, 5)).1).current = some n) ∧
    (∀ n, newPrep.2.nodes.get? newPrep.2.current = some n →
      n.parent = none → undoM newPrep.2 = newPrep.2)) :=
  ⟨ReachableG.prep ReachableG.base rfl,
    spec_C8 newPrep.2 (ReachableG.prep ReachableG.base rfl) (6, 5)⟩

end LibRS
